import Mathlib

set_option maxRecDepth 100000
set_option maxHeartbeats 1000000

namespace SpotiFlac

/-! Shallow embedding of the SpotiFLAC repository's core: the path/filename
sanitizer (`backend/filename.go`), the Billboard chart parser
(`backend/billboard.go`), and the resumable Spotify matching engine
(`frontend/src/components/BillboardPage.tsx`).  Strings are modelled as the
sequences of Unicode scalar values that Lean's `String` carries; Go iterates
runes the same way on valid UTF-8 input (the `utf8.ValidString` repair step of
`SanitizeFilename` is the identity on such input). -/

/-- Characters matched by the Go regexp class `\s` (ASCII only:
tab, LF, FF, CR, space). -/
def reWS (c : Char) : Bool :=
  c.toNat == 9 || c.toNat == 10 || c.toNat == 12 || c.toNat == 13 || c.toNat == 32

/-- Go `unicode.IsSpace` (the Unicode White_Space property). -/
def goIsSpace (c : Char) : Bool :=
  let n := c.toNat
  n == 9 || n == 10 || n == 11 || n == 12 || n == 13 || n == 32 ||
  n == 0x85 || n == 0xA0 || n == 0x1680 || (0x2000 ≤ n && n ≤ 0x200A) ||
  n == 0x2028 || n == 0x2029 || n == 0x202F || n == 0x205F || n == 0x3000

/-- Go `unicode.IsControl`: the Cc category, U+0000..U+001F and U+007F..U+009F. -/
def isCc (c : Char) : Bool :=
  c.toNat ≤ 0x1F || (0x7F ≤ c.toNat && c.toNat ≤ 0x9F)

/-- Characters of the Go regexp class `[<>:"\\|?*]` used by `SanitizeFilename`. -/
def isUnsafeChar (c : Char) : Bool :=
  c == '<' || c == '>' || c == ':' || c == '"' || c == '\\' ||
  c == '|' || c == '?' || c == '*'

/-- Trim matching characters from the front of a character list
(Go `strings.TrimLeft` on a cutset, or the left half of `TrimSpace`). -/
def trimL (p : Char → Bool) (l : List Char) : List Char :=
  l.dropWhile p

/-- Trim matching characters from both ends (Go `strings.Trim` /
`strings.TrimSpace` with the given class). -/
def trimBoth (p : Char → Bool) (l : List Char) : List Char :=
  ((trimL p l).reverse.dropWhile p).reverse

/-- Core of run collapsing: `inRun` records whether the previous character
was part of a run being collapsed. -/
def collapseGo (p : Char → Bool) (rep : Char) : Bool → List Char → List Char
  | _, [] => []
  | true, c :: cs =>
      if p c then collapseGo p rep true cs else c :: collapseGo p rep false cs
  | false, c :: cs =>
      if p c then rep :: collapseGo p rep true cs else c :: collapseGo p rep false cs

/-- Replace every maximal run of characters matching `p` by the single
character `rep`: Go `regexp.MustCompile(cls+"+").ReplaceAllString(s, rep)`
for a one-character class/replacement. -/
def collapseRuns (p : Char → Bool) (rep : Char) (l : List Char) : List Char :=
  collapseGo p rep false l

/-- Character filter kept by the control-character removal loop of
`SanitizeFilename`: a rune survives unless it is a control character
(below 0x20 other than tab/LF/CR, DEL, or a Cc-category rune). -/
def keepRune (c : Char) : Bool :=
  c == '\t' || c == '\n' || c == '\r' || !(isCc c)

/-- The character pipeline of `SanitizeFilename` (`backend/filename.go`),
stage by stage, before the final `"Unknown"` fallback:
slash and unsafe-character replacement, control removal, `TrimSpace`,
`Trim(". ")`, whitespace-run collapse, underscore-run collapse,
`Trim("_ ")`. -/
def sanitizeChars (l : List Char) : List Char :=
  let s1 := l.map (fun c => if c == '/' then ' ' else c)
  let s2 := s1.map (fun c => if isUnsafeChar c then ' ' else c)
  let s3 := s2.filter keepRune
  let s4 := trimBoth goIsSpace s3
  let s5 := trimBoth (fun c => c == '.' || c == ' ') s4
  let s6 := collapseRuns reWS ' ' s5
  let s7 := collapseRuns (fun c => c == '_') '_' s6
  trimBoth (fun c => c == '_' || c == ' ') s7

/-- Go `SanitizeFilename` (`backend/filename.go`): sanitize one path
segment, falling back to `"Unknown"` when everything is stripped.  The final
`utf8.ValidString` repair is the identity here because Lean strings are
sequences of Unicode scalar values. -/
def SanitizeFilename (s : String) : String :=
  let r := sanitizeChars s.data
  if r = [] then "Unknown" else ⟨r⟩

/-- Pairs of adjacent characters that are not both in the class `p`. -/
def noPair (p : Char → Bool) (a b : Char) : Prop :=
  ¬(p a = true ∧ p b = true)

/-- Specification-side predicate for C8: not one of the unsafe characters
`< > : " \ | ? *`, not a control byte below 0x20, and not DEL (0x7F). -/
def segmentSafeChar (c : Char) : Bool :=
  !(isUnsafeChar c) && decide (0x20 ≤ c.toNat) && !(c.toNat == 0x7F)

/-- Edge characters allowing idempotence: not Unicode whitespace, not a dot. -/
def tameEdge (c : Char) : Bool :=
  !(goIsSpace c) && !(c == '.')

/-! Regular-expression engine for `backend/billboard.go`.  The Go code uses
`regexp` (Perl-like leftmost-first matching) with patterns built from
literals, character-class repetitions (`[^>]*`, `[^"]*`, `\s*`, `\d+`,
`\d{1,3}`), lazy dot-star under `(?s)`, and a single capture group.  The
engine below implements exactly that atom language with backtracking in
preference order (greedy tries longest first, lazy shortest first), which
reproduces Go's leftmost-first semantics for these patterns. -/

/-- One regular-expression atom: a literal, or a repetition of a
one-character class between `lo` and `hi` occurrences (`none` = unbounded),
greedy unless `lzy`, or a capture-group marker. -/
inductive RAtom where
  | lit (cs : List Char)
  | cls (p : Char → Bool) (lo : Nat) (hi : Option Nat) (lzy : Bool)
  | gopen
  | gclose

/-- Result of matching a pattern at a position: the remaining suffix and the
suffix lengths at which the capture group opened and closed. -/
structure MRes where
  rest : List Char
  ga : Option Nat
  gb : Option Nat

/-- Try a list of repetition lengths in order: continue matching with `f`
on the suffix after each candidate length until one succeeds. -/
def firstSomeK (f : List Char → Option MRes) (s : List Char) : List Nat → Option MRes
  | [] => none
  | k :: ks =>
      match f (s.drop k) with
      | some r => some r
      | none => firstSomeK f s ks

/-- Match a list of atoms at the start of `s`, backtracking through the
repetition choices in preference order (structural recursion on the atom
list; the repetition candidates are tried by `firstSomeK`). -/
def matchAtoms : List RAtom → List Char → Option MRes
  | [], s => some ⟨s, none, none⟩
  | .gopen :: ps, s => (matchAtoms ps s).map (fun r => { r with ga := some s.length })
  | .gclose :: ps, s => (matchAtoms ps s).map (fun r => { r with gb := some s.length })
  | .lit cs :: ps, s =>
      if cs.isPrefixOf s then matchAtoms ps (s.drop cs.length) else none
  | .cls p lo hi lzy :: ps, s =>
      let run := (s.takeWhile p).length
      let cap := match hi with | some h => min run h | none => run
      if cap < lo then none
      else firstSomeK (matchAtoms ps) s ((List.range (cap + 1 - lo)).map
        (fun i => if lzy then lo + i else cap - i))

/-- Leftmost search: the first position of `s` (including the end position)
at which the pattern matches, Go `FindString` positioning. -/
def searchPos (pat : List RAtom) : List Char → Option (Nat × MRes)
  | [] => (matchAtoms pat []).map (fun r => (0, r))
  | c :: t =>
      match matchAtoms pat (c :: t) with
      | some r => some (0, r)
      | none => (searchPos pat t).map (fun p => (p.1 + 1, p.2))

/-- A submatch: the full matched text and the capture-group text, as in the
two components of Go `FindStringSubmatch`. -/
structure Submatch where
  full : List Char
  grp : List Char

/-- Build the submatch strings for a match of `r` at position `pos` of `s`. -/
def submatchOf (s : List Char) (pos : Nat) (r : MRes) : Submatch :=
  let here := s.drop pos
  let len := here.length - r.rest.length
  { full := here.take len
    grp :=
      match r.ga, r.gb with
      | some a, some b => (here.drop (here.length - a)).take (a - b)
      | _, _ => [] }

/-- Go `FindStringSubmatch`: the leftmost match with its capture group. -/
def findSubmatch (pat : List RAtom) (s : List Char) : Option Submatch :=
  (searchPos pat s).map (fun p => submatchOf s p.1 p.2)

/-- Fuel-driven core of `FindAllStringSubmatch`.  Each iteration advances by
at least one character, so fuel `s.length + 1` never runs out; the `0` case
is unreachable. -/
def findAllGo (pat : List RAtom) : Nat → List Char → List Submatch
  | 0, _ => []
  | fuel + 1, s =>
      match searchPos pat s with
      | none => []
      | some (pos, r) =>
          let sub := submatchOf s pos r
          if s = [] then [sub]
          else
            let here := s.drop pos
            let len := here.length - r.rest.length
            sub :: findAllGo pat fuel (s.drop (pos + max len 1))

/-- Go `FindAllStringSubmatch` (no limit): all non-overlapping matches from
left to right, continuing after each match (advancing one character past an
empty match). -/
def findAllSubmatch (pat : List RAtom) (s : List Char) : List Submatch :=
  findAllGo pat (s.length + 1) s

/-- Fuel-driven core of `ReplaceAllString`; as in `findAllGo` the fuel
`s.length + 1` is always sufficient. -/
def replaceAllCore (pat : List RAtom) (rep : List Char) : Nat → List Char → List Char
  | 0, s => s
  | fuel + 1, s =>
      match searchPos pat s with
      | none => s
      | some (pos, r) =>
          if s = [] then rep
          else
            let here := s.drop pos
            let len := here.length - r.rest.length
            if len = 0 then
              s.take pos ++ rep ++ (s.drop pos).take 1 ++
                replaceAllCore pat rep fuel (s.drop (pos + 1))
            else
              s.take pos ++ rep ++ replaceAllCore pat rep fuel (s.drop (pos + len))

/-- Go `ReplaceAllString`: replace every non-overlapping leftmost match by
`rep` (keeping the character after an empty match, as Go advances one rune). -/
def replaceAllGo (pat : List RAtom) (rep : List Char) (s : List Char) : List Char :=
  replaceAllCore pat rep (s.length + 1) s

/-! Character classes and patterns of `backend/billboard.go`. -/

/-- Class `[^>]` of the Go patterns. -/
def notGt (c : Char) : Bool := !(c == '>')

/-- Class `[^"]` of the Go patterns. -/
def notQuote (c : Char) : Bool := !(c == '"')

/-- Greedy unbounded repetition of a class (`[...]*`). -/
def star (p : Char → Bool) : RAtom := .cls p 0 none false

/-- Lazy dot-star under `(?s)` (`.*?` matching any character). -/
def lazyStar : RAtom := .cls (fun _ => true) 0 none true

/-- Greedy `\d+`. -/
def digits1 : RAtom := .cls Char.isDigit 1 none false

/-- Literal atom from a string. -/
def litS (t : String) : RAtom := .lit t.data

/-- Go pattern `(?s)<ul[^>]*class="[^"]*o-chart-results-list-row[^"]*"[^>]*>(.*?)</ul>`. -/
def P_row : List RAtom :=
  [litS "<ul", star notGt, litS "class=\"", star notQuote,
   litS "o-chart-results-list-row", star notQuote, litS "\"", star notGt,
   litS ">", .gopen, lazyStar, .gclose, litS "</ul>"]

/-- Go pattern `<li[^>]*>\s*<span[^>]*class="[^"]*c-label[^"]*"[^>]*>\s*(\d+)\s*</span>`. -/
def P_rank1 : List RAtom :=
  [litS "<li", star notGt, litS ">", star reWS, litS "<span", star notGt,
   litS "class=\"", star notQuote, litS "c-label", star notQuote, litS "\"",
   star notGt, litS ">", star reWS, .gopen, digits1, .gclose, star reWS,
   litS "</span>"]

/-- Go pattern `(?s)<h3[^>]*id="title-of-a-story"[^>]*>\s*(.*?)\s*</h3>`. -/
def P_title : List RAtom :=
  [litS "<h3", star notGt, litS "id=\"title-of-a-story\"", star notGt,
   litS ">", star reWS, .gopen, lazyStar, .gclose, star reWS, litS "</h3>"]

/-- Go pattern
`(?s)id="title-of-a-story"[^>]*>.*?</h3>\s*<span[^>]*class="[^"]*c-label[^"]*"[^>]*>\s*(.*?)\s*</span>`. -/
def P_artist1 : List RAtom :=
  [litS "id=\"title-of-a-story\"", star notGt, litS ">", lazyStar,
   litS "</h3>", star reWS, litS "<span", star notGt, litS "class=\"",
   star notQuote, litS "c-label", star notQuote, litS "\"", star notGt,
   litS ">", star reWS, .gopen, lazyStar, .gclose, star reWS, litS "</span>"]

/-- Go pattern `(?s)<a[^>]*href="/artist/[^"]*"[^>]*>\s*(.*?)\s*</a>`. -/
def P_artistLink : List RAtom :=
  [litS "<a", star notGt, litS "href=\"/artist/", star notQuote, litS "\"",
   star notGt, litS ">", star reWS, .gopen, lazyStar, .gclose, star reWS,
   litS "</a>"]

/-- Go pattern `(?s)^\s*<span[^>]*class="[^"]*c-label[^"]*"[^>]*>\s*(.*?)\s*</span>`
(anchored: matched only at the start of the searched text). -/
def P_directArtist : List RAtom :=
  [star reWS, litS "<span", star notGt, litS "class=\"", star notQuote,
   litS "c-label", star notQuote, litS "\"", star notGt, litS ">", star reWS,
   .gopen, lazyStar, .gclose, star reWS, litS "</span>"]

/-- Go pattern `>\s*(\d{1,3})\s*<`. -/
def P_rankSmall : List RAtom :=
  [litS ">", star reWS, .gopen, .cls Char.isDigit 1 (some 3) false, .gclose,
   star reWS, litS "<"]

/-- Go pattern `(?s)<li[^>]*>(.*?)</li>`. -/
def P_li : List RAtom :=
  [litS "<li", star notGt, litS ">", .gopen, lazyStar, .gclose, litS "</li>"]

/-- Go pattern `>\s*(\d+)\s*<`. -/
def P_numGt : List RAtom :=
  [litS ">", star reWS, .gopen, digits1, .gclose, star reWS, litS "<"]

/-- Go pattern `(\d+)`. -/
def P_numAny : List RAtom := [.gopen, digits1, .gclose]

/-! Text normalizer (`cleanText` in `backend/billboard.go`). -/

/-- Models Go `html.UnescapeString` restricted to the entities the source's
comment names (`&amp;` `&lt;` `&gt;` `&quot;` `&#039;`): each `&` is decoded
when one of these references follows, otherwise kept literally.  On strings
containing only these references (or no `&` at all) this agrees with Go. -/
def unescapeGo : List Char → List Char
  | [] => []
  | '&' :: 'a' :: 'm' :: 'p' :: ';' :: rest => '&' :: unescapeGo rest
  | '&' :: 'l' :: 't' :: ';' :: rest => '<' :: unescapeGo rest
  | '&' :: 'g' :: 't' :: ';' :: rest => '>' :: unescapeGo rest
  | '&' :: 'q' :: 'u' :: 'o' :: 't' :: ';' :: rest => '"' :: unescapeGo rest
  | '&' :: '#' :: '0' :: '3' :: '9' :: ';' :: rest => '\'' :: unescapeGo rest
  | c :: cs => c :: unescapeGo cs

/-- Skip to just past the first `'>'`, if any. -/
def dropTag : List Char → Option (List Char)
  | [] => none
  | c :: cs => if c = '>' then some cs else dropTag cs

/-- Fuel-driven core of tag stripping; fuel `l.length + 1` always suffices
because every step consumes at least one character. -/
def stripTagsGo : Nat → List Char → List Char
  | 0, l => l
  | _ + 1, [] => []
  | fuel + 1, c :: cs =>
      if c = '<' then
        match dropTag cs with
        | some rest => stripTagsGo fuel rest
        | none => c :: cs
      else c :: stripTagsGo fuel cs

/-- Go `regexp.MustCompile("<[^>]*>").ReplaceAllString(text, "")`: each
leftmost match runs from a `'<'` to the first `'>'` after it; a `'<'` with no
later `'>'` matches nothing and is kept. -/
def stripTags (l : List Char) : List Char :=
  stripTagsGo (l.length + 1) l

/-- Go `cleanText` (`backend/billboard.go`): decode entities, strip embedded
tags, `TrimSpace`, and collapse whitespace runs to single spaces. -/
def cleanText (s : String) : String :=
  let t1 := unescapeGo s.data
  let t2 := stripTags t1
  let t3 := trimBoth goIsSpace t2
  ⟨collapseRuns reWS ' ' t3⟩

/-! The Billboard chart parser. -/

/-- Go `BillboardEntry` (`backend/billboard.go`).  The Go fields are `int`;
every value the parser stores is a parsed decimal (hence non-negative) or a
summand of a 1-based index, so `Nat` is faithful. -/
structure BillboardEntry where
  Rank : Nat
  Title : String
  Artist : String
  LastWeekRank : Nat
  PeakRank : Nat
  WeeksOnChart : Nat
  IsNew : Bool
deriving Repr, DecidableEq

/-- Go `strconv.Atoi` on the all-digit strings produced by the `\d` groups. -/
def atoiDigits (l : List Char) : Nat :=
  l.foldl (fun n c => n * 10 + (c.toNat - 48)) 0

/-- Go `strings.Contains`. -/
def hasSub (pat : List Char) : List Char → Bool
  | [] => pat.isEmpty
  | c :: cs => pat.isPrefixOf (c :: cs) || hasSub pat cs

/-- Go `strings.Index` (as an `Option` instead of `-1`). -/
def firstIdxSub (pat : List Char) : List Char → Option Nat
  | [] => if pat.isEmpty then some 0 else none
  | c :: cs =>
      if pat.isPrefixOf (c :: cs) then some 0
      else (firstIdxSub pat cs).map (fun i => i + 1)

/-- Go `extractStat`: the numeric label inside the list item at `liIndex`. -/
def extractStat (rowContent : List Char) (liIndex : Nat) : Nat :=
  let liMatches := findAllSubmatch P_li rowContent
  match liMatches.get? liIndex with
  | some sub =>
      (match findSubmatch P_numGt sub.grp with
      | some s2 => atoiDigits (trimBoth goIsSpace s2.grp)
      | none =>
          match findSubmatch P_numAny sub.grp with
          | some s3 => atoiDigits (trimBoth goIsSpace s3.grp)
          | none => 0)
  | none => 0

/-- Go `extractChartEntry`: extract one entry from a row's inner HTML. -/
def extractChartEntry (rowContent : List Char) : BillboardEntry :=
  let rank := match findSubmatch P_rank1 rowContent with
    | some m => atoiDigits (trimBoth goIsSpace m.grp)
    | none => 0
  let title := match findSubmatch P_title rowContent with
    | some m => cleanText ⟨m.grp⟩
    | none => ""
  let artist0 := match findSubmatch P_artist1 rowContent with
    | some m => cleanText ⟨m.grp⟩
    | none => ""
  let artist := if artist0 = "" then
      match findSubmatch P_artistLink rowContent with
      | some m => cleanText ⟨m.grp⟩
      | none => ""
    else artist0
  { Rank := rank, Title := title, Artist := artist,
    LastWeekRank := extractStat rowContent 3,
    PeakRank := extractStat rowContent 4,
    WeeksOnChart := extractStat rowContent 5,
    IsNew := hasSub ">NEW<".data rowContent || hasSub ">NEW ".data rowContent }

/-- Numeric value of a scanned rank token (`strconv.Atoi` of the group). -/
def rankTokenVal (lm : Submatch) : Nat :=
  atoiDigits (trimBoth goIsSpace lm.grp)

/-- The rank-refinement scan of `parseDirectExtraction`: the last small
bracketed numeric token in the up-to-300 characters before the title,
accepted when in `1..100`. -/
def directRankScan (beforeTitle : List Char) : Option Nat :=
  match (findAllSubmatch P_rankSmall beforeTitle).getLast? with
  | some lm =>
      if 1 ≤ rankTokenVal lm ∧ rankTokenVal lm ≤ 100 then some (rankTokenVal lm)
      else none
  | none => none

/-- The up-to-300-character window before the title heading scanned for a
rank token (Go slice `htmlContent[max(0,titlePos-300):titlePos]`; `Nat`
subtraction clamps at zero exactly as the Go `if startPos < 0` branch). -/
def directBefore (html : List Char) (titlePos : Nat) : List Char :=
  let startPos := titlePos - 300
  (html.drop startPos).take (titlePos - startPos)

/-- The rank override the tier-2 loop would apply for title match `m`:
`none` when the title is not found again or no plausible token precedes it. -/
def directOverride (html : List Char) (m : Submatch) : Option Nat :=
  match firstIdxSub m.full html with
  | none => none
  | some titlePos => directRankScan (directBefore html titlePos)

/-- The up-to-500-character window after the title heading (Go slice
`htmlContent[titlePos+len(full) : min(titlePos+len(full)+500, len)]`). -/
def directAfter (html : List Char) (titlePos fullLen : Nat) : List Char :=
  let afterStart := titlePos + fullLen
  let endPos := min (afterStart + 500) html.length
  (html.drop afterStart).take (endPos - afterStart)

/-- Artist recovery from the span immediately following the heading (the
anchored `^\s*<span ... c-label ...>` pattern). -/
def directArtistSpan (afterTitle : List Char) : String :=
  match matchAtoms P_directArtist afterTitle with
  | some r => cleanText ⟨(submatchOf afterTitle 0 r).grp⟩
  | none => ""

/-- Artist recovery from up to three artist-link anchors after the heading,
joined with a comma and space. -/
def directArtistLinks (afterTitle : List Char) : String :=
  String.intercalate ", " (((findAllSubmatch P_artistLink afterTitle).take 3).filterMap
    (fun sub =>
      let a := cleanText ⟨sub.grp⟩
      if a = "" then none else some a))

/-- Artist for a tier-2 entry: the direct span if non-empty, otherwise the
joined artist links. -/
def directArtist (afterTitle : List Char) : String :=
  if directArtistSpan afterTitle = "" then directArtistLinks afterTitle
  else directArtistSpan afterTitle

/-- One iteration of the `parseDirectExtraction` loop for the `i`-th title
match `m`: `none` when the Go loop `continue`s or drops the entry. -/
def directEntry (html : List Char) (i : Nat) (m : Submatch) : Option BillboardEntry :=
  let title := cleanText ⟨m.grp⟩
  if title = "" then none
  else
    match firstIdxSub m.full html with
    | none => none
    | some titlePos =>
        let artist := directArtist (directAfter html titlePos m.full.length)
        let rank := match directRankScan (directBefore html titlePos) with
          | some rk => rk
          | none => i + 1
        if artist = "" then none
        else some { Rank := rank, Title := title, Artist := artist,
                    LastWeekRank := 0, PeakRank := 0, WeeksOnChart := 0,
                    IsNew := false }

/-- Go `parseDirectExtraction`: tier-2 fallback extraction over all title
headings in document order. -/
def parseDirectExtraction (html : List Char) : List BillboardEntry :=
  (findAllSubmatch P_title html).enum.filterMap (fun p => directEntry html p.1 p.2)

/-- Go `parseBillboardHTML`: tier-1 row-structural extraction, falling back
to tier-2 direct extraction when no rows or no valid entries are found.  The
Go function's error result is always `nil`, so it is omitted. -/
def parseBillboardHTML (html : String) : List BillboardEntry :=
  let rows := findAllSubmatch P_row html.data
  if rows.isEmpty then parseDirectExtraction html.data
  else
    let entries := (rows.map (fun r => extractChartEntry r.grp)).filter
      (fun e => !(e.Title == "") && !(e.Artist == "") && decide (0 < e.Rank))
    if entries.isEmpty then parseDirectExtraction html.data else entries

/-- Example document with two title headings, an artist span after each, and
no row containers: the parser takes the tier-2 path and the `<b>1</b>` label
before the second heading overrides its provisional rank to 1, duplicating
the first entry's rank. -/
def exTier2DupHtml : String :=
  "<h3 id=\"title-of-a-story\">A</h3><span class=\"c-label\">X</span><b>1</b><h3 id=\"title-of-a-story\">B</h3><span class=\"c-label\">Y</span>"

/-- Example document like `exTier2DupHtml` but without the numeric label, so
no rank override fires and the provisional 1-based ranks stand. -/
def exTier2Html : String :=
  "<h3 id=\"title-of-a-story\">A</h3><span class=\"c-label\">X</span><h3 id=\"title-of-a-story\">B</h3><span class=\"c-label\">Y</span>"

/-- The first entry the parser extracts from `exTier2Html`. -/
def exEntryA : BillboardEntry :=
  { Rank := 1, Title := "A", Artist := "X",
    LastWeekRank := 0, PeakRank := 0, WeeksOnChart := 0, IsNew := false }

/-! The folder-path sanitizer (`SanitizeFolderPath` in `backend/filename.go`).
The path separator is fixed to the Windows backslash: the UNC branch this
code implements exists only on Windows, where `filepath.Separator` is `'\\'`. -/

/-- Go `strings.HasPrefix`. -/
def hasPrefixGo (pre s : List Char) : Bool :=
  match pre with
  | [] => true
  | p :: ps =>
    match s with
    | [] => false
    | c :: cs => p == c && hasPrefixGo ps cs

/-- Go `strings.Split` on a single separator character. -/
def splitChar (sep : Char) : List Char → List (List Char)
  | [] => [[]]
  | a :: as =>
      match splitChar sep as with
      | [] => [[a]]
      | h :: t => if a = sep then [] :: h :: t else (a :: h) :: t

/-- Go `strings.Join` with a single separator character. -/
def joinParts (sep : Char) : List (List Char) → List Char
  | [] => []
  | [p] => p
  | p :: q :: rest => p ++ sep :: joinParts sep (q :: rest)

/-- The per-segment loop of `SanitizeFolderPath`: segments at the first two
index positions of a UNC path are kept verbatim when non-empty; a non-UNC
first segment that is a drive letter (`X:`) or empty (rooted path) is kept;
all other segments are sanitized and kept when the result is non-empty. -/
def sanLoop (isUNC : Bool) : Nat → List (List Char) → List (List Char)
  | _, [] => []
  | i, part :: rest =>
      if isUNC = true ∧ i < 2 then
        (if part ≠ [] then [part] else []) ++ sanLoop isUNC (i + 1) rest
      else if isUNC = false ∧ i = 0 ∧ part.length = 2 ∧ part[1]? = some ':' then
        part :: sanLoop isUNC (i + 1) rest
      else if isUNC = false ∧ i = 0 ∧ part = [] then
        part :: sanLoop isUNC (i + 1) rest
      else
        (if (SanitizeFilename ⟨part⟩).data ≠ [] then [(SanitizeFilename ⟨part⟩).data]
         else []) ++ sanLoop isUNC (i + 1) rest

/-- Go `SanitizeFolderPath` (`backend/filename.go`). -/
def SanitizeFolderPath (folderPath : String) : String :=
  let isUNC := hasPrefixGo ['\\', '\\'] folderPath.data
  let workPath := if isUNC then folderPath.data.drop 2 else folderPath.data
  let normalizedPath := workPath.map (fun c => if c == '/' then '\\' else c)
  let parts := splitChar '\\' normalizedPath
  let result := joinParts '\\' (sanLoop isUNC 0 parts)
  if isUNC then ⟨'\\' :: '\\' :: result⟩ else ⟨result⟩

/-- Characters allowed in a clean path segment: no separator, no slash. -/
def sepFree (c : Char) : Bool := !(c == '\\') && !(c == '/')

/-! The filename builder (`BuildExpectedFilename` in `backend/filename.go`). -/

/-- Decimal digits of a natural number, fuel-driven (`fmt.Sprintf("%d", n)`
for the positive numbers it is applied to). -/
def natDigitsAux : Nat → Nat → List Char → List Char
  | 0, _, acc => acc
  | fuel + 1, n, acc =>
      if n < 10 then Char.ofNat (48 + n) :: acc
      else natDigitsAux fuel (n / 10) (Char.ofNat (48 + n % 10) :: acc)

/-- Decimal rendering of a natural number. -/
def natDigits (n : Nat) : List Char := natDigitsAux (n + 1) n []

/-- Go `fmt.Sprintf("%02d", n)` for non-negative `n`: two-digit zero pad. -/
def pad2 (n : Nat) : List Char := if n < 10 then '0' :: natDigits n else natDigits n

/-- Fuel-driven core of Go `strings.ReplaceAll` for a non-empty pattern:
replace each leftmost non-overlapping occurrence of `old` by `new`.  Every
step consumes at least one character, so fuel `s.length + 1` suffices. -/
def replaceSubAux (old new : List Char) : Nat → List Char → List Char
  | 0, s => s
  | fuel + 1, s =>
      match s with
      | [] => []
      | c :: cs =>
          if hasPrefixGo old (c :: cs) then
            new ++ replaceSubAux old new fuel ((c :: cs).drop old.length)
          else c :: replaceSubAux old new fuel cs

/-- Go `strings.ReplaceAll` for a non-empty pattern. -/
def replaceAllSub (old new s : List Char) : List Char :=
  replaceSubAux old new (s.length + 1) s

/-- The Go pattern `\{track\}\.\s*`. -/
def P_trackDot : List RAtom := [.lit "{track}.".data, star reWS]

/-- The Go pattern `\{track\}\s*-\s*`. -/
def P_trackDash : List RAtom :=
  [.lit "{track}".data, star reWS, .lit "-".data, star reWS]

/-- The Go pattern `\{track\}\s*`. -/
def P_trackWSP : List RAtom := [.lit "{track}".data, star reWS]

/-- Go `BuildExpectedFilename` (`backend/filename.go`).  `releaseDate[:4]`
slices bytes in Go; release dates are ASCII, so the first four characters
coincide with the first four bytes. -/
def BuildExpectedFilename (trackName artistName albumName albumArtist
    releaseDate filenameFormat playlistName playlistOwner : String)
    (includeTrackNumber : Bool) (position discNumber : Int)
    (useAlbumTrackNumber : Bool) : String :=
  let safeTitle := SanitizeFilename trackName
  let safeArtist := SanitizeFilename artistName
  let safeAlbum := SanitizeFilename albumName
  let safeAlbumArtist := SanitizeFilename albumArtist
  let safePlaylist := SanitizeFilename playlistName
  let safeCreator := SanitizeFilename playlistOwner
  let year := if 4 ≤ releaseDate.data.length then releaseDate.data.take 4 else []
  if hasSub "\x7b".data filenameFormat.data then
    let f1 := replaceAllSub "{title}".data safeTitle.data filenameFormat.data
    let f2 := replaceAllSub "{artist}".data safeArtist.data f1
    let f3 := replaceAllSub "{album}".data safeAlbum.data f2
    let f4 := replaceAllSub "{album_artist}".data safeAlbumArtist.data f3
    let f5 := replaceAllSub "{year}".data year f4
    let f6 := replaceAllSub "{playlist}".data safePlaylist.data f5
    let f7 := replaceAllSub "{creator}".data safeCreator.data f6
    let f8 :=
      if 0 < discNumber then
        replaceAllSub "{disc}".data (natDigits discNumber.toNat) f7
      else
        replaceAllSub "{disc}".data [] f7
    let f9 :=
      if 0 < position then
        replaceAllSub "{track}".data (pad2 position.toNat) f8
      else
        replaceAllGo P_trackWSP [] (replaceAllGo P_trackDash []
          (replaceAllGo P_trackDot [] f8))
    ⟨f9 ++ ".flac".data⟩
  else
    let base :=
      if filenameFormat = "artist-title" then
        safeArtist.data ++ " - ".data ++ safeTitle.data
      else if filenameFormat = "title" then safeTitle.data
      else safeTitle.data ++ " - ".data ++ safeArtist.data
    let base2 :=
      if includeTrackNumber = true ∧ 0 < position then
        pad2 position.toNat ++ ". ".data ++ base
      else base
    ⟨base2 ++ ".flac".data⟩

/-! The Spotify matching engine of
`frontend/src/components/BillboardPage.tsx` (`matchWithSpotify`).  The
`SearchSpotify` collaborator is abstracted as an oracle indexed by the entry
index and the retry count (the query built from the entry's title and artist
is a function of the index); the `stopMatchingRef` flag, set externally by
the user, is abstracted as a predicate on an abstract clock of `ticks`, one
tick per read of the flag.  `delays` records every awaited `delay(ms)`
duration in order, `calls` counts search invocations, and `pubs` records
each `setMatchedCount`/`setMatchedIndices` publication pair.  The JS
`Set<number>` is modelled as a duplicate-free list in insertion order, and
the `|| ""`-style fallbacks in the track update are identities on their
types and are therefore inlined. -/

structure STrack where
  id : String
  name : String
  album_name : String
  images : String
  duration_ms : Nat
  external_urls : String
  is_explicit : Bool
  release_date : String

inductive SearchOutcome where
  | ok (tracks : List STrack)
  | err (msg : String)

structure TrackMetadata where
  spotify_id : String
  album_name : String
  images : String
  duration_ms : Nat
  external_urls : String
  is_explicit : Bool
  release_date : String
  isrc : String

structure BillboardEntryTS where
  rank : Nat
  title : String
  artist : String

def MAX_RETRIES : Nat := 3

def BASE_DELAY : Nat := 1500

def RATE_LIMIT_DELAY : Nat := 10000

def toLowerGo (l : List Char) : List Char := l.map Char.toLower

def isRateLimited (msg : String) : Bool :=
  let m := toLowerGo msg.data
  hasSub "429".data m || hasSub "rate".data m ||
    hasSub "too many".data m || hasSub "quota".data m

structure MatchState where
  tracks : List TrackMetadata
  matchedIdx : List Nat
  matched : Nat
  calls : Nat
  delays : List Nat
  pubs : List (Nat × List Nat)
  ticks : Nat

def addIdx (l : List Nat) (i : Nat) : List Nat := if l.contains i then l else l ++ [i]

def applyMatch (old : TrackMetadata) (t : STrack) : TrackMetadata :=
  { old with
    spotify_id := t.id
    album_name := t.album_name
    images := t.images
    duration_ms := t.duration_ms
    external_urls := t.external_urls
    is_explicit := t.is_explicit
    release_date := t.release_date
    isrc := t.id }

def attemptLoop (oracle : Nat → Nat → SearchOutcome) (stop : Nat → Bool) (i : Nat) :
    Nat → Nat → MatchState → MatchState
  | 0, _, st => st
  | fuel + 1, rc, st =>
      if stop st.ticks then { st with ticks := st.ticks + 1 }
      else
        let st1 := { st with ticks := st.ticks + 1, calls := st.calls + 1 }
        match oracle i rc with
        | .ok ts =>
            match ts with
            | [] => st1
            | t :: _ =>
                if t.id = "" then st1
                else
                  { st1 with
                    tracks :=
                      match st1.tracks[i]? with
                      | some old => st1.tracks.set i (applyMatch old t)
                      | none => st1.tracks
                    matchedIdx := addIdx st1.matchedIdx i
                    matched := st1.matched + 1
                    pubs := st1.pubs ++ [(st1.matched + 1, addIdx st1.matchedIdx i)] }
        | .err msg =>
            if isRateLimited msg then
              attemptLoop oracle stop i fuel (rc + 1)
                { st1 with delays := st1.delays ++ [RATE_LIMIT_DELAY * (rc + 1)] }
            else if rc + 1 < MAX_RETRIES then
              attemptLoop oracle stop i fuel (rc + 1)
                { st1 with delays := st1.delays ++ [BASE_DELAY * (rc + 1)] }
            else
              attemptLoop oracle stop i fuel (rc + 1) st1

def runFrom (oracle : Nat → Nat → SearchOutcome) (stop : Nat → Bool) (n : Nat) :
    Nat → Nat → MatchState → MatchState
  | 0, _, st => st
  | fuel + 1, i, st =>
      if stop st.ticks then { st with ticks := st.ticks + 1 }
      else
        let st1 := { st with ticks := st.ticks + 1 }
        if st1.matchedIdx.contains i then runFrom oracle stop n fuel (i + 1) st1
        else
          let st2 := attemptLoop oracle stop i MAX_RETRIES 0 st1
          if i < n - 1 then
            if stop st2.ticks then
              runFrom oracle stop n fuel (i + 1) { st2 with ticks := st2.ticks + 1 }
            else
              runFrom oracle stop n fuel (i + 1)
                { st2 with ticks := st2.ticks + 1, delays := st2.delays ++ [BASE_DELAY] }
          else runFrom oracle stop n fuel (i + 1) st2

def matchWithSpotify (oracle : Nat → Nat → SearchOutcome) (stop : Nat → Bool)
    (entries : List BillboardEntryTS) (currentTracks : List TrackMetadata)
    (startIndex : Nat) (initIdx : List Nat) (initCount : Nat) : MatchState :=
  runFrom oracle stop entries.length (entries.length - startIndex) startIndex
    { tracks := currentTracks, matchedIdx := initIdx, matched := initCount,
      calls := 0, delays := [], pubs := [], ticks := 0 }

/-- The matching-run invariant: the matched count is the size of the
matched-index set, the set has no duplicates, every published pair agrees,
published sets grow along the run, and the last published set is the
current one. -/
def INV (st : MatchState) : Prop :=
  st.matched = st.matchedIdx.length ∧ st.matchedIdx.Nodup ∧
  (∀ p ∈ st.pubs, p.1 = p.2.length) ∧
  List.Chain' (fun a b => a.2 <+: b.2) st.pubs ∧
  (∀ p, st.pubs.getLast? = some p → p.2 = st.matchedIdx)

def exOracle : Nat → Nat → SearchOutcome := fun i rc =>
  if i = 0 then
    .err (if rc = 0 then "HTTP 429" else if rc = 1 then "boom" else "Quota exceeded")
  else .ok [⟨"sp1", "nm", "al", "im", 1, "u", false, "rd"⟩]

def exTrackM : TrackMetadata := ⟨"", "", "", 0, "", false, "", ""⟩

def exEntryTS : BillboardEntryTS := ⟨1, "T", "A"⟩

/-! ## Theorems -/

/-! Lemmas about the sanitizer pipeline. -/

/-- Characters of a string built from an explicit character list. -/
theorem stringDataMk (l : List Char) : (String.mk l).data = l := rfl

/-- Unfolding of `SanitizeFilename` on a string built from a character list. -/
theorem SanitizeFilename_mk (l : List Char) :
    SanitizeFilename (String.mk l) =
      (if sanitizeChars l = [] then "Unknown" else ⟨sanitizeChars l⟩) := rfl

/-- Head of a `dropWhile` result never satisfies the dropped predicate. -/
theorem head_dropWhile_not (p : Char → Bool) (l : List Char) :
    ∀ c, (l.dropWhile p).head? = some c → p c = false := by
  induction l with
  | nil => intro c h; simp [List.dropWhile] at h
  | cons a as ih =>
    intro c h
    by_cases hp : p a = true
    · rw [List.dropWhile_cons_of_pos hp] at h; exact ih c h
    · rw [List.dropWhile_cons_of_neg hp] at h
      simp only [List.head?_cons, Option.some.injEq] at h
      subst h; simpa using hp

/-- Dropping a satisfied front preserves the last element. -/
theorem getLast_dropWhile (p : Char → Bool) (l : List Char) :
    ∀ c, (l.dropWhile p).getLast? = some c → l.getLast? = some c := by
  induction l with
  | nil => intro c h; simp [List.dropWhile] at h
  | cons a as ih =>
    intro c h
    by_cases hp : p a = true
    · rw [List.dropWhile_cons_of_pos hp] at h
      exact Option.mem_def.mp (List.mem_getLast?_cons (Option.mem_def.mpr (ih c h)))
    · rwa [List.dropWhile_cons_of_neg hp] at h

/-- Head of a trimmed list never satisfies the trimming predicate. -/
theorem head_trimBoth_not (p : Char → Bool) (l : List Char) :
    ∀ c, (trimBoth p l).head? = some c → p c = false := by
  intro c h
  unfold trimBoth at h
  rw [List.head?_reverse] at h
  have h2 := getLast_dropWhile p (trimL p l).reverse c h
  rw [List.getLast?_reverse] at h2
  exact head_dropWhile_not p l c h2

/-- Last element of a trimmed list never satisfies the trimming predicate. -/
theorem getLast_trimBoth_not (p : Char → Bool) (l : List Char) :
    ∀ c, (trimBoth p l).getLast? = some c → p c = false := by
  intro c h
  unfold trimBoth at h
  rw [List.getLast?_reverse] at h
  exact head_dropWhile_not p _ c h

/-- Members of a trimmed list are members of the original. -/
theorem mem_trimBoth (p : Char → Bool) (l : List Char) :
    ∀ c, c ∈ trimBoth p l → c ∈ l := by
  intro c h
  unfold trimBoth trimL at h
  rw [List.mem_reverse] at h
  have h2 := (List.dropWhile_sublist _).mem h
  rw [List.mem_reverse] at h2
  exact (List.dropWhile_sublist _).mem h2

/-- A member of a collapse result is either an untouched non-matching
member of the input or the replacement character. -/
theorem mem_collapseGo (p : Char → Bool) (rep : Char) :
    ∀ (b : Bool) (l : List Char) (c : Char), c ∈ collapseGo p rep b l →
      (c ∈ l ∧ p c = false) ∨ c = rep := by
  intro b l
  induction l generalizing b with
  | nil => intro c h; simp [collapseGo] at h
  | cons a as ih =>
    intro c h
    cases b with
    | true =>
      by_cases hp : p a = true
      · simp only [collapseGo, if_pos hp] at h
        rcases ih true c h with ⟨h1, h2⟩ | h1
        · exact Or.inl ⟨List.mem_cons_of_mem _ h1, h2⟩
        · exact Or.inr h1
      · simp only [collapseGo, if_neg hp] at h
        rcases List.mem_cons.mp h with h1 | h1
        · subst h1; exact Or.inl ⟨List.mem_cons_self _ _, by simpa using hp⟩
        · rcases ih false c h1 with ⟨h2, h3⟩ | h2
          · exact Or.inl ⟨List.mem_cons_of_mem _ h2, h3⟩
          · exact Or.inr h2
    | false =>
      by_cases hp : p a = true
      · simp only [collapseGo, if_pos hp] at h
        rcases List.mem_cons.mp h with h1 | h1
        · exact Or.inr h1
        · rcases ih true c h1 with ⟨h2, h3⟩ | h2
          · exact Or.inl ⟨List.mem_cons_of_mem _ h2, h3⟩
          · exact Or.inr h2
      · simp only [collapseGo, if_neg hp] at h
        rcases List.mem_cons.mp h with h1 | h1
        · subst h1; exact Or.inl ⟨List.mem_cons_self _ _, by simpa using hp⟩
        · rcases ih false c h1 with ⟨h2, h3⟩ | h2
          · exact Or.inl ⟨List.mem_cons_of_mem _ h2, h3⟩
          · exact Or.inr h2

/-- Head of a collapse started inside a run never satisfies the class. -/
theorem head_collapseGo_true (p : Char → Bool) (rep : Char) (l : List Char) :
    ∀ c, (collapseGo p rep true l).head? = some c → p c = false := by
  induction l with
  | nil => intro c h; simp [collapseGo] at h
  | cons a as ih =>
    intro c h
    by_cases hp : p a = true
    · simp only [collapseGo, if_pos hp] at h; exact ih c h
    · simp only [collapseGo, if_neg hp, List.head?_cons, Option.some.injEq] at h
      subst h; simpa using hp

/-- A collapse result never contains two adjacent characters of the class. -/
theorem chain_collapseGo (p : Char → Bool) (rep : Char) :
    ∀ (b : Bool) (l : List Char), List.Chain' (noPair p) (collapseGo p rep b l) := by
  intro b l
  induction l generalizing b with
  | nil => cases b <;> simp [collapseGo]
  | cons a as ih =>
    cases b with
    | true =>
      by_cases hp : p a = true
      · simpa only [collapseGo, if_pos hp] using ih true
      · simp only [collapseGo, if_neg hp]
        refine List.chain'_cons'.mpr ⟨?_, ih false⟩
        intro y _
        exact fun hc => by simp [hp] at hc
    | false =>
      by_cases hp : p a = true
      · simp only [collapseGo, if_pos hp]
        refine List.chain'_cons'.mpr ⟨?_, ih true⟩
        intro y hy
        have := head_collapseGo_true p rep as y hy
        exact fun hc => by simp [this] at hc
      · simp only [collapseGo, if_neg hp]
        refine List.chain'_cons'.mpr ⟨?_, ih false⟩
        intro y _
        exact fun hc => by simp [hp] at hc

/-- Head of a collapse started outside a run is the replacement character
or the head of the input. -/
theorem head_collapseGo_false (p : Char → Bool) (rep : Char) (l : List Char) :
    ∀ c, (collapseGo p rep false l).head? = some c → c = rep ∨ l.head? = some c := by
  intro c h
  cases l with
  | nil => simp [collapseGo] at h
  | cons a as =>
    by_cases hp : p a = true
    · simp only [collapseGo, if_pos hp, List.head?_cons, Option.some.injEq] at h
      exact Or.inl h.symm
    · simp only [collapseGo, if_neg hp, List.head?_cons, Option.some.injEq] at h
      exact Or.inr (by simp [h])

/-- Collapsing one class preserves absence of adjacent pairs of another
class, provided the replacement character is outside that other class. -/
theorem chain_preserved_collapseGo (p q : Char → Bool) (rep : Char)
    (hrep : q rep = false) :
    ∀ (b : Bool) (l : List Char), List.Chain' (noPair q) l →
      List.Chain' (noPair q) (collapseGo p rep b l) := by
  intro b l
  induction l generalizing b with
  | nil => intro _; cases b <;> simp [collapseGo]
  | cons a as ih =>
    intro hch
    have htl : List.Chain' (noPair q) as := (List.chain'_cons'.mp hch).2
    have hhd : ∀ y, as.head? = some y → noPair q a y :=
      fun y hy => (List.chain'_cons'.mp hch).1 y hy
    have hcopy : List.Chain' (noPair q) (a :: collapseGo p rep false as) := by
      refine List.chain'_cons'.mpr ⟨?_, ih false htl⟩
      intro y hy
      rcases head_collapseGo_false p rep as y hy with h1 | h1
      · subst h1; exact fun hc => by simp [hrep] at hc
      · exact hhd y h1
    cases b with
    | true =>
      by_cases hp : p a = true
      · simpa only [collapseGo, if_pos hp] using ih true htl
      · simpa only [collapseGo, if_neg hp] using hcopy
    | false =>
      by_cases hp : p a = true
      · simp only [collapseGo, if_pos hp]
        refine List.chain'_cons'.mpr ⟨?_, ih true htl⟩
        intro y _
        exact fun hc => by simp [hrep] at hc
      · simpa only [collapseGo, if_neg hp] using hcopy

/-- A pointwise-fixed map is the identity. -/
theorem map_id_of (f : Char → Char) :
    ∀ l : List Char, (∀ c ∈ l, f c = c) → l.map f = l := by
  intro l h
  induction l with
  | nil => rfl
  | cons a as ih =>
    simp only [List.map_cons, h a (List.mem_cons_self a as),
      ih (fun c hc => h c (List.mem_cons_of_mem a hc))]

/-- Dropping nothing: `dropWhile` is the identity when the head fails `p`. -/
theorem dropWhile_id_of (p : Char → Bool) (l : List Char)
    (h : ∀ c, l.head? = some c → p c = false) : l.dropWhile p = l := by
  cases l with
  | nil => rfl
  | cons a as => exact List.dropWhile_cons_of_neg (by simp [h a rfl])

/-- Trimming is the identity when neither end matches `p`. -/
theorem trimBoth_id_of (p : Char → Bool) (l : List Char)
    (hh : ∀ c, l.head? = some c → p c = false)
    (hl : ∀ c, l.getLast? = some c → p c = false) : trimBoth p l = l := by
  unfold trimBoth trimL
  rw [dropWhile_id_of p l hh]
  rw [dropWhile_id_of p l.reverse (fun c hc => hl c (by rwa [List.head?_reverse] at hc))]
  exact l.reverse_reverse

/-- A trimmed list is an infix of the original list. -/
theorem trimBoth_within (p : Char → Bool) (l : List Char) : trimBoth p l <:+: l := by
  unfold trimBoth trimL
  have h1 : l.dropWhile p <:+ l := List.dropWhile_suffix p
  have h2 : (l.dropWhile p).reverse.dropWhile p <:+ (l.dropWhile p).reverse :=
    List.dropWhile_suffix p
  have h3 : ((l.dropWhile p).reverse.dropWhile p).reverse <+: l.dropWhile p := by
    rw [← List.reverse_suffix]
    simpa using h2
  exact h3.isInfix.trans h1.isInfix

/-- Collapsing is the identity when every class character already equals the
replacement and no two class characters are adjacent; the second component
additionally needs the head to be outside the class (run-in-progress flag). -/
theorem collapseGo_id (p : Char → Bool) (rep : Char) :
    ∀ l : List Char, (∀ c ∈ l, p c = true → c = rep) →
      List.Chain' (noPair p) l →
      collapseGo p rep false l = l ∧
        ((∀ c, l.head? = some c → p c = false) → collapseGo p rep true l = l) := by
  intro l
  induction l with
  | nil => intro _ _; exact ⟨rfl, fun _ => rfl⟩
  | cons a as ih =>
    intro hmem hch
    have htl := (List.chain'_cons'.mp hch).2
    have hhd := (List.chain'_cons'.mp hch).1
    have ihr := ih (fun c hc => hmem c (List.mem_cons_of_mem a hc)) htl
    constructor
    · by_cases hp : p a = true
      · have ha : a = rep := hmem a (List.mem_cons_self a as) hp
        have hheads : ∀ c, as.head? = some c → p c = false := by
          intro c hc
          have := hhd c hc
          unfold noPair at this
          by_contra hcp
          exact this ⟨hp, by simpa using hcp⟩
        rw [show collapseGo p rep false (a :: as) = rep :: collapseGo p rep true as from by
          simp [collapseGo, hp]]
        rw [ihr.2 hheads, ha]
      · simp only [collapseGo, if_neg hp, ihr.1]
    · intro hhead
      have hpa : p a = false := hhead a rfl
      simp only [collapseGo, if_neg (by simp [hpa] : ¬p a = true), ihr.1]

/-- Every character of a sanitized segment is a space, an underscore, or an
untouched character that is outside all the replaced/stripped classes. -/
theorem sanitizeChars_mem (l : List Char) :
    ∀ c ∈ sanitizeChars l, c = ' ' ∨ c = '_' ∨
      (reWS c = false ∧ keepRune c = true ∧ isUnsafeChar c = false ∧ c ≠ '/') := by
  intro c hc
  unfold sanitizeChars at hc
  have hc7 := mem_trimBoth _ _ c hc
  rcases mem_collapseGo _ '_' false _ c hc7 with ⟨hc6, hne⟩ | hus
  · rcases mem_collapseGo reWS ' ' false _ c hc6 with ⟨hc5, hws⟩ | hsp
    · have hc4 := mem_trimBoth _ _ c hc5
      have hc3 := mem_trimBoth _ _ c hc4
      have hc2 := List.mem_filter.mp hc3
      rcases List.mem_map.mp hc2.1 with ⟨b, hb1, hb2⟩
      by_cases hub : isUnsafeChar b = true
      · rw [if_pos hub] at hb2
        rw [← hb2] at hws
        rw [show reWS ' ' = true from rfl] at hws
        cases hws
      · rw [if_neg (by simp [hub])] at hb2
        subst hb2
        rcases List.mem_map.mp hb1 with ⟨d, _, hd2⟩
        by_cases hds : (d == '/') = true
        · rw [if_pos hds] at hd2
          rw [← hd2] at hws
          rw [show reWS ' ' = true from rfl] at hws
          cases hws
        · rw [if_neg (by simp [hds])] at hd2
          subst hd2
          refine Or.inr (Or.inr ⟨hws, hc2.2, by simpa using hub, by simpa using hds⟩)
    · exact Or.inl hsp
  · exact Or.inr (Or.inl hus)

/-- A kept, non-whitespace character is neither a low control byte nor DEL. -/
theorem safe_of_kept (c : Char) (hk : keepRune c = true) (hw : reWS c = false) :
    0x20 ≤ c.toNat ∧ c.toNat ≠ 0x7F := by
  by_cases ht : c = '\t'
  · rw [ht] at hw; exact absurd hw (by decide)
  by_cases hn : c = '\n'
  · rw [hn] at hw; exact absurd hw (by decide)
  by_cases hr : c = '\r'
  · rw [hr] at hw; exact absurd hw (by decide)
  have hcc : isCc c = false := by
    unfold keepRune at hk
    cases hicc : isCc c with
    | false => rfl
    | true =>
      rw [hicc] at hk
      simp only [Bool.not_true, Bool.or_false, Bool.or_eq_true, beq_iff_eq] at hk
      tauto
  simp only [isCc, Bool.or_eq_false_iff, decide_eq_false_iff_not,
    Bool.and_eq_false_iff] at hcc
  rcases hcc with ⟨h1, h2 | h2⟩ <;> exact ⟨by omega, by omega⟩

/-- Chain property of a sanitized segment: no two adjacent whitespace
characters (in the sense of the Go regexp class). -/
theorem sanitizeChars_chain_ws (l : List Char) :
    List.Chain' (noPair reWS) (sanitizeChars l) := by
  unfold sanitizeChars collapseRuns
  exact List.Chain'.infix (chain_preserved_collapseGo (fun c => c == '_') reWS '_'
    (by decide) false _ (chain_collapseGo reWS ' ' false _)) (trimBoth_within _ _)

/-- Chain property of a sanitized segment: no two adjacent underscores. -/
theorem sanitizeChars_chain_us (l : List Char) :
    List.Chain' (noPair (fun c => c == '_')) (sanitizeChars l) := by
  unfold sanitizeChars collapseRuns
  exact List.Chain'.infix (chain_collapseGo _ '_' false _) (trimBoth_within _ _)

/-- Edge property of a sanitized segment: neither end is `'_'` or `' '`. -/
theorem sanitizeChars_edges (l : List Char) :
    (∀ c, (sanitizeChars l).head? = some c → (c == '_' || c == ' ') = false) ∧
    (∀ c, (sanitizeChars l).getLast? = some c → (c == '_' || c == ' ') = false) := by
  unfold sanitizeChars
  exact ⟨head_trimBoth_not _ _, getLast_trimBoth_not _ _⟩

/-- A list satisfying all the output invariants of `sanitizeChars`, with tame
edges, is a fixed point of `sanitizeChars`. -/
theorem sanitizeChars_fixed (r : List Char)
    (hmem : ∀ c ∈ r, c = ' ' ∨ c = '_' ∨
      (reWS c = false ∧ keepRune c = true ∧ isUnsafeChar c = false ∧ c ≠ '/'))
    (hchW : List.Chain' (noPair reWS) r)
    (hchU : List.Chain' (noPair (fun c => c == '_')) r)
    (hedgeh : ∀ c, r.head? = some c → (c == '_' || c == ' ') = false)
    (hedgel : ∀ c, r.getLast? = some c → (c == '_' || c == ' ') = false)
    (hth : ∀ c, r.head? = some c → tameEdge c = true)
    (htl : ∀ c, r.getLast? = some c → tameEdge c = true) :
    sanitizeChars r = r := by
  have e1 : r.map (fun c => if c == '/' then ' ' else c) = r := by
    apply map_id_of
    intro c hc
    rcases hmem c hc with h | h | ⟨_, _, _, h4⟩
    · subst h; rfl
    · subst h; rfl
    · rw [if_neg (by simp [h4])]
  have e2 : r.map (fun c => if isUnsafeChar c then ' ' else c) = r := by
    apply map_id_of
    intro c hc
    rcases hmem c hc with h | h | ⟨_, _, h3, _⟩
    · subst h; rfl
    · subst h; rfl
    · rw [if_neg (by simp [h3])]
  have e3 : r.filter keepRune = r := by
    apply List.filter_eq_self.mpr
    intro c hc
    rcases hmem c hc with h | h | ⟨_, h2, _, _⟩
    · subst h; decide
    · subst h; decide
    · exact h2
  have hth' : ∀ c, r.head? = some c → goIsSpace c = false := by
    intro c hc
    have h1 := hth c hc
    simp only [tameEdge, Bool.and_eq_true, Bool.not_eq_true'] at h1
    exact h1.1
  have htl' : ∀ c, r.getLast? = some c → goIsSpace c = false := by
    intro c hc
    have h1 := htl c hc
    simp only [tameEdge, Bool.and_eq_true, Bool.not_eq_true'] at h1
    exact h1.1
  have e4 : trimBoth goIsSpace r = r := trimBoth_id_of _ _ hth' htl'
  have hdh : ∀ c, r.head? = some c → (c == '.' || c == ' ') = false := by
    intro c hc
    have h1 := hth c hc
    have h2 := hth' c hc
    simp only [tameEdge, Bool.and_eq_true, Bool.not_eq_true'] at h1
    have hsp : (c == ' ') = false := by
      cases hcs : (c == ' ') with
      | false => rfl
      | true =>
        have hce : c = ' ' := by simpa using hcs
        rw [hce] at h2
        simp [goIsSpace] at h2
    simp only [Bool.or_eq_false_iff]
    exact ⟨h1.2, hsp⟩
  have hdl : ∀ c, r.getLast? = some c → (c == '.' || c == ' ') = false := by
    intro c hc
    have h1 := htl c hc
    have h2 := htl' c hc
    simp only [tameEdge, Bool.and_eq_true, Bool.not_eq_true'] at h1
    have hsp : (c == ' ') = false := by
      cases hcs : (c == ' ') with
      | false => rfl
      | true =>
        have hce : c = ' ' := by simpa using hcs
        rw [hce] at h2
        simp [goIsSpace] at h2
    simp only [Bool.or_eq_false_iff]
    exact ⟨h1.2, hsp⟩
  have e5 : trimBoth (fun c => c == '.' || c == ' ') r = r := trimBoth_id_of _ _ hdh hdl
  have e6 : collapseRuns reWS ' ' r = r := by
    apply (collapseGo_id reWS ' ' r ?_ hchW).1
    intro c hc hws
    rcases hmem c hc with h | h | ⟨h1, _, _, _⟩
    · exact h
    · subst h
      rw [show reWS '_' = false from rfl] at hws
      cases hws
    · rw [h1] at hws; cases hws
  have e7 : collapseRuns (fun c => c == '_') '_' r = r := by
    apply (collapseGo_id _ '_' r ?_ hchU).1
    intro c _ h
    simpa using h
  have e8 : trimBoth (fun c => c == '_' || c == ' ') r = r := trimBoth_id_of _ _ hedgeh hedgel
  simp only [sanitizeChars]
  rw [e1, e2, e3, e4, e5, e6, e7, e8]

/-- C8: for every input string, `SanitizeFilename` (the segment sanitizer)
returns a non-empty string — falling back to the literal `"Unknown"` when
everything is stripped — containing none of the characters
`< > : " \ | ? *` and no control bytes (code points below 0x20, or 0x7F). -/
theorem C8_sanitized_segment_nonempty_and_safe (s : String) :
    0 < (SanitizeFilename s).data.length ∧
      (SanitizeFilename s).data.all segmentSafeChar = true := by
  unfold SanitizeFilename
  by_cases h : sanitizeChars s.data = []
  · rw [if_pos h]
    refine ⟨?_, rfl⟩
    rw [show ("Unknown" : String).data.length = 7 from rfl]
    omega
  · rw [if_neg h, stringDataMk]
    refine ⟨List.length_pos.mpr h, ?_⟩
    rw [List.all_eq_true]
    intro c hc
    rcases sanitizeChars_mem s.data c hc with h1 | h1 | ⟨hw, hk, hu, _⟩
    · subst h1; rfl
    · subst h1; rfl
    · have hs := safe_of_kept c hk hw
      simp [segmentSafeChar, hu, hs.1, hs.2]

/-- C2 counterexample: the segment sanitizer is not idempotent.  On the input
`"a._"` the first pass yields `"a."` (the trailing underscore is trimmed
after the dot trim already ran), and the second pass trims the now-exposed
trailing dot, yielding `"a"`. -/
theorem C2_cex_sanitize_not_idempotent :
    SanitizeFilename (SanitizeFilename "a._") ≠ SanitizeFilename "a._" := by
  have h1 : SanitizeFilename "a._" = "a." := rfl
  have h2 : SanitizeFilename "a." = "a" := rfl
  rw [h1, h2]
  decide

/-- C2 (amended): the segment sanitizer is idempotent on every input whose
sanitized form neither begins nor ends with a dot or a Unicode whitespace
character (the unrestricted claim fails: a trailing underscore can expose a
trailing dot, and non-ASCII whitespace at an edge survives the first pass but
is trimmed by the second). -/
theorem C2_sanitize_idempotent_on_tame_edges (x : String)
    (h1 : (SanitizeFilename x).data.head?.all tameEdge = true)
    (h2 : (SanitizeFilename x).data.getLast?.all tameEdge = true) :
    SanitizeFilename (SanitizeFilename x) = SanitizeFilename x := by
  by_cases h : sanitizeChars x.data = []
  · have hy : SanitizeFilename x = "Unknown" := by
      unfold SanitizeFilename; rw [if_pos h]
    rw [hy]; decide
  · have hy : SanitizeFilename x = ⟨sanitizeChars x.data⟩ := by
      unfold SanitizeFilename; rw [if_neg h]
    rw [hy] at h1 h2 ⊢
    rw [stringDataMk] at h1 h2
    have hh : ∀ c, (sanitizeChars x.data).head? = some c → tameEdge c = true := by
      intro c hc
      rw [hc] at h1
      simpa using h1
    have hlast : ∀ c, (sanitizeChars x.data).getLast? = some c → tameEdge c = true := by
      intro c hc
      rw [hc] at h2
      simpa using h2
    have hfix : sanitizeChars (sanitizeChars x.data) = sanitizeChars x.data :=
      sanitizeChars_fixed _ (sanitizeChars_mem x.data) (sanitizeChars_chain_ws x.data)
        (sanitizeChars_chain_us x.data) (sanitizeChars_edges x.data).1
        (sanitizeChars_edges x.data).2 hh hlast
    rw [SanitizeFilename_mk, hfix, if_neg h]

/-- C2 witness: a concrete input with tame edges on which the amended
idempotence theorem applies. -/
theorem C2_witness_tame_input :
    ((SanitizeFilename "My Song").data.head?.all tameEdge = true) ∧
    ((SanitizeFilename "My Song").data.getLast?.all tameEdge = true) ∧
    SanitizeFilename (SanitizeFilename "My Song") = SanitizeFilename "My Song" := by
  have h1 : SanitizeFilename "My Song" = "My Song" := rfl
  refine ⟨by rw [h1]; rfl, by rw [h1]; rfl, ?_⟩
  exact C2_sanitize_idempotent_on_tame_edges "My Song" (by rw [h1]; rfl)
    (by rw [h1]; rfl)

/-- Skipping a tag shortens the text. -/
theorem dropTag_length : ∀ (cs r : List Char), dropTag cs = some r → r.length < cs.length := by
  intro cs
  induction cs with
  | nil => intro r h; simp [dropTag] at h
  | cons a as ih =>
    intro r h
    unfold dropTag at h
    by_cases ha : a = '>'
    · rw [if_pos ha] at h
      cases h
      simp
    · rw [if_neg ha] at h
      have := ih r h
      simp only [List.length_cons]
      omega

/-! Validity of parsed entries (claims about the parser). -/

/-- A successful rank scan yields a value of at least 1. -/
theorem directRankScan_pos (b : List Char) (rk : Nat)
    (h : directRankScan b = some rk) : 1 ≤ rk := by
  unfold directRankScan at h
  split at h
  · split at h
    · rename_i hcond
      cases h
      exact hcond.1
    · exact absurd h (by simp)
  · exact absurd h (by simp)

/-- A retained tier-2 entry has a non-empty title, a non-empty artist, and a
rank of at least 1 (either the scanned plausible rank or the 1-based index). -/
theorem directEntry_props (html : List Char) (i : Nat) (m : Submatch)
    (e : BillboardEntry) (h : directEntry html i m = some e) :
    e.Title ≠ "" ∧ e.Artist ≠ "" ∧ 1 ≤ e.Rank := by
  simp only [directEntry] at h
  split at h
  · exact absurd h (by simp)
  split at h
  · exact absurd h (by simp)
  split at h
  · exact absurd h (by simp)
  rename_i htitle hscrut titlePos hfind hartist
  rw [Option.some.injEq] at h
  subst h
  refine ⟨htitle, hartist, ?_⟩
  show 1 ≤ (match directRankScan (directBefore html titlePos) with
    | some rk => rk
    | none => i + 1)
  split
  · rename_i rk hrk
    exact directRankScan_pos _ rk hrk
  · exact Nat.le_add_left 1 i

/-- Every entry of the tier-2 extraction satisfies the entry invariant. -/
theorem parseDirect_props (html : List Char) (e : BillboardEntry)
    (he : e ∈ parseDirectExtraction html) :
    e.Title ≠ "" ∧ e.Artist ≠ "" ∧ 1 ≤ e.Rank := by
  unfold parseDirectExtraction at he
  rcases List.mem_filterMap.mp he with ⟨p, _, hstep⟩
  exact directEntry_props html p.1 p.2 e hstep

/-- C1: every entry returned by the chart parser — through tier-1
row-structural extraction or the tier-2 direct-extraction fallback — has a
non-empty title, a non-empty artist, and rank at least 1; no
partially-invalid entry is retained. -/
theorem C1_parsed_entries_valid (html : String) (e : BillboardEntry)
    (he : e ∈ parseBillboardHTML html) :
    e.Title ≠ "" ∧ e.Artist ≠ "" ∧ 1 ≤ e.Rank := by
  simp only [parseBillboardHTML] at he
  split at he
  · exact parseDirect_props _ _ he
  · split at he
    · exact parseDirect_props _ _ he
    · have hp := (List.mem_filter.mp he).2
      simp only [Bool.and_eq_true, Bool.not_eq_true', beq_eq_false_iff_ne, ne_eq,
        decide_eq_true_eq] at hp
      exact ⟨hp.1.1, hp.1.2, hp.2⟩

/-- C1 witness: a concrete document and an entry of its parse, on which the
validity theorem applies. -/
theorem C1_witness_concrete_entry :
    (exEntryA ∈ parseBillboardHTML exTier2Html) ∧
    (exEntryA.Title ≠ "" ∧ exEntryA.Artist ≠ "" ∧ 1 ≤ exEntryA.Rank) := by
  have hm : parseBillboardHTML exTier2Html =
      [exEntryA,
       { Rank := 2, Title := "B", Artist := "Y",
         LastWeekRank := 0, PeakRank := 0, WeeksOnChart := 0, IsNew := false }] := rfl
  have hmem : exEntryA ∈ parseBillboardHTML exTier2Html := by
    rw [hm]
    exact List.mem_cons_self _ _
  exact ⟨hmem, C1_parsed_entries_valid exTier2Html exEntryA hmem⟩

/-- C5 counterexample: rank values in a parsed snapshot need not be unique.
On `exTier2DupHtml` the tier-2 path assigns rank 1 to both entries — the
second entry's look-behind scan finds the `>1<` token and overrides its
provisional rank 2. -/
theorem C5_cex_duplicate_ranks :
    ¬ ((parseBillboardHTML exTier2DupHtml).map (fun e => e.Rank)).Nodup := by
  rw [show (parseBillboardHTML exTier2DupHtml).map (fun e => e.Rank) = [1, 1] from rfl]
  decide

/-- A tier-2 entry whose title match has no rank override gets the 1-based
occurrence index as its rank. -/
theorem directEntry_rank_no_override (html : List Char) (i : Nat) (m : Submatch)
    (e : BillboardEntry) (hno : directOverride html m = none)
    (h : directEntry html i m = some e) : e.Rank = i + 1 := by
  simp only [directEntry] at h
  split at h
  · exact absurd h (by simp)
  split at h
  · exact absurd h (by simp)
  split at h
  · exact absurd h (by simp)
  rename_i htitle hscrut titlePos hfind hartist
  rw [Option.some.injEq] at h
  subst h
  show (match directRankScan (directBefore html titlePos) with
    | some rk => rk
    | none => i + 1) = i + 1
  unfold directOverride at hno
  rw [hfind] at hno
  have hr : directRankScan (directBefore html titlePos) = none := hno
  rw [hr]

/-- Ranks of the tier-2 extraction are strictly increasing when no override
fires, tracking the 1-based occurrence index: auxiliary strengthening over a
start index. -/
theorem directRanks_aux (html : List Char) :
    ∀ (ms : List Submatch) (n : Nat),
      (∀ m ∈ ms, directOverride html m = none) →
      (∀ e ∈ (List.enumFrom n ms).filterMap (fun p => directEntry html p.1 p.2),
        n < e.Rank) ∧
      (((List.enumFrom n ms).filterMap
        (fun p => directEntry html p.1 p.2)).map (fun e => e.Rank)).Pairwise (· < ·) := by
  intro ms
  induction ms with
  | nil =>
    intro n _
    exact ⟨fun e he => by simp [List.enumFrom] at he, by simp [List.enumFrom]⟩
  | cons m ms ih =>
    intro n hno
    have hno' : ∀ m' ∈ ms, directOverride html m' = none :=
      fun m' hm' => hno m' (List.mem_cons_of_mem _ hm')
    have ihh := ih (n + 1) hno'
    rw [List.enumFrom_cons]
    cases hde : directEntry html n m with
    | none =>
      simp only [List.filterMap_cons, hde]
      refine ⟨fun e he => ?_, ihh.2⟩
      have := ihh.1 e he
      omega
    | some e =>
      have hrank : e.Rank = n + 1 :=
        directEntry_rank_no_override html n m e (hno m (List.mem_cons_self _ _)) hde
      simp only [List.filterMap_cons, hde]
      constructor
      · intro e' he'
        rcases List.mem_cons.mp he' with h1 | h1
        · subst h1; omega
        · have := ihh.1 e' h1; omega
      · rw [List.map_cons]
        refine List.Pairwise.cons ?_ ihh.2
        intro b hb
        rcases List.mem_map.mp hb with ⟨e', he', hb2⟩
        subst hb2
        have := ihh.1 e' he'
        omega

/-- C5 (amended): in the tier-2 path, whenever the look-behind rank scan
finds no plausible token for any title occurrence, the produced ranks are the
1-based occurrence indices of retained titles, hence pairwise distinct; in
general (rank override, or tier-1) uniqueness is not guaranteed. -/
theorem C5_ranks_unique_without_override (html : List Char)
    (h : ((findAllSubmatch P_title html).enum.all
      (fun p => (directOverride html p.2).isNone)) = true) :
    ((parseDirectExtraction html).map (fun e => e.Rank)).Nodup := by
  rw [List.all_eq_true] at h
  have hno : ∀ m ∈ findAllSubmatch P_title html, directOverride html m = none := by
    intro m hm
    have hmem : m ∈ (findAllSubmatch P_title html).enum.map Prod.snd := by
      rw [List.enum_map_snd]
      exact hm
    rcases List.mem_map.mp hmem with ⟨p, hp, hsnd⟩
    have := h p hp
    rw [hsnd] at this
    exact Option.isNone_iff_eq_none.mp this
  have haux := directRanks_aux html (findAllSubmatch P_title html) 0 hno
  have : parseDirectExtraction html =
      (List.enumFrom 0 (findAllSubmatch P_title html)).filterMap
        (fun p => directEntry html p.1 p.2) := rfl
  rw [this]
  exact (haux.2).imp (fun hlt => Nat.ne_of_lt hlt)

/-- C5 witness: on `exTier2Html` no override fires and the ranks come out
pairwise distinct. -/
theorem C5_witness_no_override :
    ((findAllSubmatch P_title exTier2Html.data).enum.all
      (fun p => (directOverride exTier2Html.data p.2).isNone)) = true ∧
    ((parseDirectExtraction exTier2Html.data).map (fun e => e.Rank)).Nodup :=
  ⟨rfl, C5_ranks_unique_without_override exTier2Html.data rfl⟩

/-! Idempotence analysis of the text normalizer (claim C3). -/

/-- Entity decoding is the identity on ampersand-free text. -/
theorem unescapeGo_id (l : List Char) (h : ∀ c ∈ l, (c == '&') = false) :
    unescapeGo l = l := by
  induction l with
  | nil => rfl
  | cons a as ih =>
    have ha : ¬(a = '&') := by
      have := h a (List.mem_cons_self a as)
      simpa using this
    rw [unescapeGo.eq_def]
    split
    · rename_i heq; exact absurd heq (List.cons_ne_nil a as)
    · rename_i heq; rw [List.cons.injEq] at heq; exact absurd heq.1 ha
    · rename_i heq; rw [List.cons.injEq] at heq; exact absurd heq.1 ha
    · rename_i heq; rw [List.cons.injEq] at heq; exact absurd heq.1 ha
    · rename_i heq; rw [List.cons.injEq] at heq; exact absurd heq.1 ha
    · rename_i heq; rw [List.cons.injEq] at heq; exact absurd heq.1 ha
    · rename_i c cs heq
      rw [List.cons.injEq] at heq
      rw [← heq.1, ← heq.2]
      rw [ih (fun d hd => h d (List.mem_cons_of_mem a hd))]

/-- Tag stripping (with sufficient fuel) is the identity on text free of
`'<'`. -/
theorem stripTagsGo_id (fuel : Nat) (l : List Char)
    (h : ∀ c ∈ l, (c == '<') = false) (hf : l.length < fuel) :
    stripTagsGo fuel l = l := by
  induction fuel generalizing l with
  | zero => omega
  | succ f ih =>
    cases l with
    | nil => rfl
    | cons a as =>
      have ha : ¬(a = '<') := by
        have := h a (List.mem_cons_self a as)
        simpa using this
      show (if a = '<' then _ else a :: stripTagsGo f as) = a :: as
      rw [if_neg ha]
      rw [ih as (fun d hd => h d (List.mem_cons_of_mem a hd)) (by
        simp only [List.length_cons] at hf
        omega)]

/-- Tag stripping is the identity on text free of `'<'`. -/
theorem stripTags_id (l : List Char) (h : ∀ c ∈ l, (c == '<') = false) :
    stripTags l = l :=
  stripTagsGo_id (l.length + 1) l h (Nat.lt_succ_self _)

/-- Collapsing preserves a last element that is outside the class. -/
theorem getLast_collapseGo (p : Char → Bool) (rep : Char) :
    ∀ (l : List Char) (b : Bool) (c : Char), l.getLast? = some c → p c = false →
      (collapseGo p rep b l).getLast? = some c := by
  intro l
  induction l with
  | nil => intro b c h; simp at h
  | cons a as ih =>
    intro b c h hc
    cases as with
    | nil =>
      simp only [List.getLast?_singleton, Option.some.injEq] at h
      subst h
      cases b <;> simp [collapseGo, hc]
    | cons a2 as2 =>
      rw [List.getLast?_cons_cons] at h
      have hout : ∀ b', (collapseGo p rep b' (a2 :: as2)).getLast? = some c :=
        fun b' => ih b' c h hc
      have hcons : ∀ (x : Char) (b' : Bool),
          (x :: collapseGo p rep b' (a2 :: as2)).getLast? = some c := by
        intro x b'
        exact Option.mem_def.mp (List.mem_getLast?_cons (Option.mem_def.mpr (hout b')))
      cases b with
      | true =>
        by_cases hp : p a = true
        · simp only [collapseGo, if_pos hp]
          exact hout true
        · simp only [collapseGo, if_neg hp]
          exact hcons a false
      | false =>
        by_cases hp : p a = true
        · simp only [collapseGo, if_pos hp]
          exact hcons rep true
        · simp only [collapseGo, if_neg hp]
          exact hcons a false

/-- C3 counterexample: the text normalizer is not idempotent.  Decoding
`"&amp;amp;"` once yields `"&amp;"`, and normalizing that again decodes it
further to `"&"`. -/
theorem C3_cex_cleanText_not_idempotent :
    cleanText (cleanText "&amp;amp;") ≠ cleanText "&amp;amp;" := by
  rw [show cleanText "&amp;amp;" = "&amp;" from rfl]
  rw [show cleanText "&amp;" = "&" from rfl]
  decide

/-- C3 (amended): the text normalizer is idempotent on every input that
contains no `'&'` and no `'<'`; on such text entity decoding and tag
stripping are inert and a trimmed, whitespace-collapsed string is a fixed
point.  In general iterated entity decoding (e.g. on `"&amp;amp;"`) breaks
idempotence. -/
theorem C3_cleanText_idempotent_no_markup (x : String)
    (h : x.data.all (fun c => !(c == '&') && !(c == '<')) = true) :
    cleanText (cleanText x) = cleanText x := by
  rw [List.all_eq_true] at h
  have hamp : ∀ c ∈ x.data, (c == '&') = false := by
    intro c hc
    have := h c hc
    simp only [Bool.and_eq_true, Bool.not_eq_true'] at this
    exact this.1
  have hlt : ∀ c ∈ x.data, (c == '<') = false := by
    intro c hc
    have := h c hc
    simp only [Bool.and_eq_true, Bool.not_eq_true'] at this
    exact this.2
  have hWSsub : ∀ c : Char, goIsSpace c = false → reWS c = false := by
    intro c hgc
    cases hrc : reWS c with
    | false => rfl
    | true =>
      have : goIsSpace c = true := by
        simp only [reWS, Bool.or_eq_true, beq_iff_eq] at hrc
        simp only [goIsSpace, Bool.or_eq_true, Bool.and_eq_true, beq_iff_eq,
          decide_eq_true_eq]
        omega
      rw [this] at hgc
      cases hgc
  have h1 : cleanText x = ⟨collapseRuns reWS ' ' (trimBoth goIsSpace x.data)⟩ := by
    simp only [cleanText]
    rw [unescapeGo_id x.data hamp, stripTags_id x.data hlt]
  have hmemy : ∀ c ∈ collapseRuns reWS ' ' (trimBoth goIsSpace x.data),
      c ∈ x.data ∨ c = ' ' := by
    intro c hc
    rcases mem_collapseGo reWS ' ' false (trimBoth goIsSpace x.data) c hc with ⟨h1', _⟩ | h2'
    · exact Or.inl (mem_trimBoth _ _ c h1')
    · exact Or.inr h2'
  have hampy : ∀ c ∈ collapseRuns reWS ' ' (trimBoth goIsSpace x.data), (c == '&') = false := by
    intro c hc
    rcases hmemy c hc with h' | h'
    · exact hamp c h'
    · subst h'; rfl
  have hlty : ∀ c ∈ collapseRuns reWS ' ' (trimBoth goIsSpace x.data), (c == '<') = false := by
    intro c hc
    rcases hmemy c hc with h' | h'
    · exact hlt c h'
    · subst h'; rfl
  have hhead : ∀ c, (collapseRuns reWS ' ' (trimBoth goIsSpace x.data)).head? = some c →
      goIsSpace c = false := by
    intro c hc
    unfold collapseRuns at hc
    cases hT : trimBoth goIsSpace x.data with
    | nil => rw [hT] at hc; simp [collapseGo] at hc
    | cons a as =>
      have hqa : goIsSpace a = false :=
        head_trimBoth_not goIsSpace x.data a (by rw [hT]; rfl)
      have hpa : reWS a = false := hWSsub a hqa
      rw [hT] at hc
      simp only [collapseGo, if_neg (by simp [hpa] : ¬reWS a = true), List.head?_cons,
        Option.some.injEq] at hc
      rw [← hc]
      exact hqa
  have hlast : ∀ c, (collapseRuns reWS ' ' (trimBoth goIsSpace x.data)).getLast? = some c →
      goIsSpace c = false := by
    intro c hc
    unfold collapseRuns at hc
    cases hgl : (trimBoth goIsSpace x.data).getLast? with
    | none =>
      rw [List.getLast?_eq_none_iff] at hgl
      rw [hgl] at hc
      simp [collapseGo] at hc
    | some c0 =>
      have hq0 : goIsSpace c0 = false := getLast_trimBoth_not goIsSpace x.data c0 hgl
      have hp0 : reWS c0 = false := hWSsub c0 hq0
      rw [getLast_collapseGo reWS ' ' (trimBoth goIsSpace x.data) false c0 hgl hp0,
        Option.some.injEq] at hc
      rw [← hc]
      exact hq0
  have htrim : trimBoth goIsSpace (collapseRuns reWS ' ' (trimBoth goIsSpace x.data)) =
      collapseRuns reWS ' ' (trimBoth goIsSpace x.data) :=
    trimBoth_id_of _ _ hhead hlast
  have hcol : collapseRuns reWS ' ' (collapseRuns reWS ' ' (trimBoth goIsSpace x.data)) =
      collapseRuns reWS ' ' (trimBoth goIsSpace x.data) := by
    apply (collapseGo_id reWS ' ' _ ?_ ?_).1
    · intro c hc hcw
      rcases mem_collapseGo reWS ' ' false (trimBoth goIsSpace x.data) c hc with ⟨_, h2'⟩ | h2'
      · rw [h2'] at hcw; cases hcw
      · exact h2'
    · exact chain_collapseGo reWS ' ' false _
  rw [h1]
  show cleanText ⟨collapseRuns reWS ' ' (trimBoth goIsSpace x.data)⟩ =
    ⟨collapseRuns reWS ' ' (trimBoth goIsSpace x.data)⟩
  simp only [cleanText, stringDataMk]
  rw [unescapeGo_id _ hampy, stripTags_id _ hlty, htrim, hcol]

/-- C3 witness: a concrete markup-free input on which the amended
idempotence theorem applies. -/
theorem C3_witness_plain_text :
    ("a  b".data.all (fun c => !(c == '&') && !(c == '<')) = true) ∧
    cleanText (cleanText "a  b") = cleanText "a  b" :=
  ⟨rfl, C3_cleanText_idempotent_no_markup "a  b" rfl⟩

/-- A sanitized segment is never the empty string. -/
theorem SanitizeFilename_data_ne_nil (s : String) : (SanitizeFilename s).data ≠ [] := by
  unfold SanitizeFilename
  by_cases h : sanitizeChars s.data = []
  · rw [if_pos h]
    rw [show ("Unknown" : String).data = ['U', 'n', 'k', 'n', 'o', 'w', 'n'] from rfl]
    simp
  · rw [if_neg h]
    rw [stringDataMk]
    exact h

/-- A split result is never the empty list of parts. -/
theorem splitChar_ne_nil (sep : Char) : ∀ l : List Char, splitChar sep l ≠ [] := by
  intro l
  cases l with
  | nil => simp [splitChar]
  | cons a as =>
    show (match splitChar sep as with
      | [] => [[a]]
      | h :: t => if a = sep then [] :: h :: t else (a :: h) :: t) ≠ []
    split
    · simp
    · split <;> simp

/-- Splitting a separator-free list yields that single part. -/
theorem splitChar_no_sep (sep : Char) :
    ∀ l : List Char, (∀ c ∈ l, ¬(c = sep)) → splitChar sep l = [l] := by
  intro l
  induction l with
  | nil => intro _; rfl
  | cons a as ih =>
    intro h
    have ha : ¬(a = sep) := h a (List.mem_cons_self a as)
    show (match splitChar sep as with
      | [] => [[a]]
      | h :: t => if a = sep then [] :: h :: t else (a :: h) :: t) = [a :: as]
    rw [ih (fun c hc => h c (List.mem_cons_of_mem a hc))]
    show (if a = sep then [[], as] else [a :: as]) = [a :: as]
    rw [if_neg ha]

/-- Splitting after a separator-free prefix peels off that part. -/
theorem splitChar_append (sep : Char) (x rest : List Char)
    (hx : ∀ c ∈ x, ¬(c = sep)) :
    splitChar sep (x ++ sep :: rest) = x :: splitChar sep rest := by
  induction x with
  | nil =>
    show (match splitChar sep rest with
      | [] => [[sep]]
      | h :: t => if sep = sep then [] :: h :: t else (sep :: h) :: t) = [] :: splitChar sep rest
    cases hs : splitChar sep rest with
    | nil => exact absurd hs (splitChar_ne_nil sep rest)
    | cons h t =>
      show (if sep = sep then [] :: h :: t else (sep :: h) :: t) = [] :: h :: t
      rw [if_pos rfl]
  | cons a as ih =>
    have ha : ¬(a = sep) := hx a (List.mem_cons_self a as)
    have ih' := ih (fun c hc => hx c (List.mem_cons_of_mem a hc))
    show (match splitChar sep (as ++ sep :: rest) with
      | [] => [[a]]
      | h :: t => if a = sep then [] :: h :: t else (a :: h) :: t) =
      (a :: as) :: splitChar sep rest
    rw [ih']
    show (if a = sep then [] :: as :: splitChar sep rest
      else (a :: as) :: splitChar sep rest) = (a :: as) :: splitChar sep rest
    rw [if_neg ha]

/-- Splitting a join of separator-free parts recovers the parts. -/
theorem splitChar_joinParts (sep : Char) :
    ∀ parts : List (List Char), parts ≠ [] →
      (∀ p ∈ parts, ∀ c ∈ p, ¬(c = sep)) →
      splitChar sep (joinParts sep parts) = parts := by
  intro parts
  induction parts with
  | nil => intro h _; exact absurd rfl h
  | cons p rest ih =>
    intro _ hfree
    cases rest with
    | nil =>
      show splitChar sep p = [p]
      exact splitChar_no_sep sep p (hfree p (List.mem_cons_self p []))
    | cons q rest2 =>
      show splitChar sep (p ++ sep :: joinParts sep (q :: rest2)) = p :: q :: rest2
      rw [splitChar_append sep p _ (hfree p (List.mem_cons_self p _))]
      rw [ih (by simp) (fun p' hp' c hc => hfree p' (List.mem_cons_of_mem p hp') c hc)]

/-- Members of a join are separators or members of some part. -/
theorem mem_joinParts (sep : Char) :
    ∀ (parts : List (List Char)) (c : Char), c ∈ joinParts sep parts →
      c = sep ∨ ∃ p ∈ parts, c ∈ p := by
  intro parts
  induction parts with
  | nil => intro c hc; simp [joinParts] at hc
  | cons p rest ih =>
    intro c hc
    cases rest with
    | nil => exact Or.inr ⟨p, List.mem_cons_self p [], hc⟩
    | cons q rest2 =>
      rw [show joinParts sep (p :: q :: rest2) = p ++ sep :: joinParts sep (q :: rest2)
        from rfl] at hc
      rcases List.mem_append.mp hc with h1 | h1
      · exact Or.inr ⟨p, List.mem_cons_self p _, h1⟩
      · rcases List.mem_cons.mp h1 with h2 | h2
        · exact Or.inl h2
        · rcases ih c h2 with h3 | ⟨p', hp', hc'⟩
          · exact Or.inl h3
          · exact Or.inr ⟨p', List.mem_cons_of_mem p hp', hc'⟩

/-- From index 2 on, the UNC segment loop sanitizes every segment (and keeps
each result, sanitized segments being non-empty). -/
theorem sanLoop_ge2 (parts : List (List Char)) :
    ∀ i, 2 ≤ i →
      sanLoop true i parts = parts.map (fun p => (SanitizeFilename ⟨p⟩).data) := by
  induction parts with
  | nil => intro i _; rfl
  | cons p rest ih =>
    intro i hi
    show (if (true : Bool) = true ∧ i < 2 then _ else _) = _
    rw [if_neg (by intro hcon; omega)]
    rw [if_neg (by intro hcon; cases hcon.1)]
    rw [if_neg (by intro hcon; cases hcon.1)]
    rw [if_pos (SanitizeFilename_data_ne_nil ⟨p⟩)]
    rw [List.map_cons]
    rw [ih (i + 1) (by omega)]
    rfl

/-- At index positions 0 and 1 the UNC segment loop keeps a non-empty
segment verbatim. -/
theorem sanLoop_lt2 (i : Nat) (p : List Char) (rest : List (List Char))
    (hi : i < 2) (hp : p ≠ []) :
    sanLoop true i (p :: rest) = p :: sanLoop true (i + 1) rest := by
  simp only [sanLoop]
  rw [if_pos ⟨trivial, hi⟩, if_pos hp]
  rfl

/-- C4, counterexample: the UNC branch keeps the segments at index
positions 0 and 1 after the leading `\\\\`, not the first two non-empty
segments. With a tripled leading separator the share name lands at index 2
and is sanitized, so the output does not contain it verbatim. -/
theorem C4_cex_unc_share_sanitized :
    SanitizeFolderPath "\\\\\\host\\sh:are" = "\\\\host\\sh are" ∧
    hasSub "sh:are".data "\\\\host\\sh are".data = false := by
  exact ⟨rfl, rfl⟩

/-- C4, amended: on a well-formed UNC path `\\host\share\seg1\...\segN`
whose host, share and segments are free of separators and forward slashes,
with host and share non-empty, the sanitizer preserves host and share
verbatim and applies segment sanitization exactly to the subsequent
segments. -/
theorem C4_unc_host_share_preserved (host share : String) (segs : List String)
    (hhost1 : host.data ≠ []) (hshare1 : share.data ≠ [])
    (hhost2 : host.data.all sepFree = true)
    (hshare2 : share.data.all sepFree = true)
    (hsegs : segs.all (fun t => t.data.all sepFree) = true) :
    SanitizeFolderPath ⟨'\\' :: '\\' :: joinParts '\\'
        (host.data :: share.data :: segs.map (fun t => t.data))⟩ =
      ⟨'\\' :: '\\' :: joinParts '\\'
        (host.data :: share.data :: segs.map (fun t => (SanitizeFilename t).data))⟩ := by
  have hchar : ∀ p ∈ host.data :: share.data :: segs.map (fun t => t.data),
      ∀ c ∈ p, ¬(c = '\\') ∧ ¬(c = '/') := by
    intro p hp c hc
    have hfree : p.all sepFree = true := by
      rcases List.mem_cons.mp hp with h | h
      · subst h; exact hhost2
      · rcases List.mem_cons.mp h with h2 | h2
        · subst h2; exact hshare2
        · rcases List.mem_map.mp h2 with ⟨t, ht, hte⟩
          subst hte
          exact List.all_eq_true.mp hsegs t ht
    have hc2 := List.all_eq_true.mp hfree c hc
    simp only [sepFree, Bool.and_eq_true, Bool.not_eq_true', beq_eq_false_iff_ne] at hc2
    exact hc2
  rw [show SanitizeFolderPath ⟨'\\' :: '\\' :: joinParts '\\'
        (host.data :: share.data :: segs.map (fun t => t.data))⟩ =
      (⟨'\\' :: '\\' :: joinParts '\\' (sanLoop true 0 (splitChar '\\'
        ((joinParts '\\' (host.data :: share.data :: segs.map (fun t => t.data))).map
          (fun c => if c == '/' then '\\' else c))))⟩ : String) from rfl]
  have hmap : (joinParts '\\' (host.data :: share.data :: segs.map (fun t => t.data))).map
      (fun c => if c == '/' then '\\' else c) =
      joinParts '\\' (host.data :: share.data :: segs.map (fun t => t.data)) := by
    apply map_id_of
    intro c hc
    rcases mem_joinParts '\\' _ c hc with h | ⟨p, hp, hcp⟩
    · subst h; rfl
    · have h2 := (hchar p hp c hcp).2
      have h3 : ¬((c == '/') = true) := fun hb => h2 (by simpa using hb)
      rw [if_neg h3]
  rw [hmap]
  rw [splitChar_joinParts '\\' _ (by simp) (fun p hp c hc => (hchar p hp c hc).1)]
  rw [sanLoop_lt2 0 host.data _ (by omega) hhost1]
  rw [sanLoop_lt2 1 share.data _ (by omega) hshare1]
  rw [sanLoop_ge2 _ 2 (by omega)]
  rw [List.map_map]
  rfl

/-- C4 witness: a concrete well-formed UNC path whose third segment holds a
colon; host and share survive verbatim and the segment is sanitized. -/
theorem C4_witness_concrete_unc :
    (("srv" : String).data ≠ [] ∧ ("media" : String).data ≠ []) ∧
    SanitizeFolderPath "\\\\srv\\media\\a:b" = "\\\\srv\\media\\a b" := by
  refine ⟨⟨by decide, by decide⟩, ?_⟩
  have h := C4_unc_host_share_preserved "srv" "media" ["a:b"]
    (by decide) (by decide) rfl rfl rfl
  rw [show ("\\\\srv\\media\\a:b" : String) =
      (⟨'\\' :: '\\' :: joinParts '\\' (("srv" : String).data :: ("media" : String).data ::
        (["a:b"] : List String).map (fun t => t.data))⟩ : String) from rfl]
  rw [h]
  rfl

theorem matchDotAt (suf : List Char) (htw : suf.takeWhile reWS = []) :
    matchAtoms P_trackDot ('{' :: ("track\x7d. ".data ++ suf)) = some ⟨suf, none, none⟩ := by
  cases suf with
  | nil => rfl
  | cons d t =>
    simp [P_trackDot, star, matchAtoms, firstSomeK, List.takeWhile_cons, htw,
      (show reWS ' ' = true from rfl), (show reWS '-' = false from rfl)]

theorem matchDashAt (suf : List Char) (htw : suf.takeWhile reWS = []) :
    matchAtoms P_trackDash ('{' :: ("track\x7d - ".data ++ suf)) = some ⟨suf, none, none⟩ := by
  cases suf with
  | nil => rfl
  | cons d t =>
    simp [P_trackDash, star, matchAtoms, firstSomeK, List.takeWhile_cons, htw,
      (show reWS ' ' = true from rfl), (show reWS '-' = false from rfl)]

theorem matchWSPAt (suf : List Char) (htw : suf.takeWhile reWS = []) :
    matchAtoms P_trackWSP ('{' :: ("track\x7d ".data ++ suf)) = some ⟨suf, none, none⟩ := by
  cases suf with
  | nil => rfl
  | cons d t =>
    simp [P_trackWSP, star, matchAtoms, firstSomeK, List.takeWhile_cons, htw,
      (show reWS ' ' = true from rfl), (show reWS '-' = false from rfl)]

theorem matchDashNone (suf : List Char) (htw : suf.takeWhile reWS = [])
    (hdash : suf.head?.all (fun c => !(c == '-')) = true) :
    matchAtoms P_trackDash ('{' :: ("track\x7d ".data ++ suf)) = none := by
  cases suf with
  | nil => rfl
  | cons d t =>
    have hdb : (d == '-') = false := by
      simp only [List.head?, Option.all, Bool.not_eq_true'] at hdash
      exact hdash
    have hd2 : ¬(d = '-') := by
      intro he; rw [he] at hdb; simp at hdb
    have hd3 : ¬('-' = d) := fun he => hd2 he.symm
    simp [P_trackDash, star, matchAtoms, firstSomeK, List.takeWhile_cons, htw, hd2, hd3,
      (show reWS ' ' = true from rfl), (show reWS '-' = false from rfl)]

theorem matchDotNoneDash (suf : List Char) :
    matchAtoms P_trackDot ('{' :: ("track\x7d - ".data ++ suf)) = none := rfl

theorem matchDotNoneWSP (suf : List Char) :
    matchAtoms P_trackDot ('{' :: ("track\x7d ".data ++ suf)) = none := rfl

theorem matchLitBraceNone (cs0 : List Char) (ps : List RAtom) (c : Char) (t : List Char)
    (hc : ¬(c = '{')) :
    matchAtoms (.lit ('{' :: cs0) :: ps) (c :: t) = none := by
  have hp : List.isPrefixOf ('{' :: cs0) (c :: t) = false := by
    rw [show List.isPrefixOf ('{' :: cs0) (c :: t) =
        (('{' == c) && List.isPrefixOf cs0 t) from rfl]
    rw [show ('{' == c) = false from beq_eq_false_iff_ne.mpr (fun he => hc he.symm)]
    exact Bool.false_and _
  simp [matchAtoms, hp]

theorem searchPos_skip (cs0 : List Char) (ps : List RAtom) (A : List Char)
    (hA : ∀ c ∈ A, ¬(c = '{')) (B : List Char) :
    searchPos (.lit ('{' :: cs0) :: ps) (A ++ B) =
      (searchPos (.lit ('{' :: cs0) :: ps) B).map (fun p => (p.1 + A.length, p.2)) := by
  induction A with
  | nil =>
    cases h : searchPos (.lit ('{' :: cs0) :: ps) B <;> simp [h]
  | cons a A ih =>
    rw [List.cons_append]
    rw [show searchPos (.lit ('{' :: cs0) :: ps) (a :: (A ++ B)) =
        (match matchAtoms (.lit ('{' :: cs0) :: ps) (a :: (A ++ B)) with
         | some r => some (0, r)
         | none => (searchPos (.lit ('{' :: cs0) :: ps) (A ++ B)).map
             (fun p => (p.1 + 1, p.2))) from rfl]
    rw [matchLitBraceNone cs0 ps a (A ++ B) (hA a (List.mem_cons_self a A))]
    rw [ih (fun c hc => hA c (List.mem_cons_of_mem a hc))]
    cases h : searchPos (.lit ('{' :: cs0) :: ps) B <;>
      simp [h, Nat.add_assoc]

theorem searchPos_nobrace (cs0 : List Char) (ps : List RAtom) :
    ∀ s : List Char, (∀ c ∈ s, ¬(c = '{')) →
      searchPos (.lit ('{' :: cs0) :: ps) s = none := by
  intro s
  induction s with
  | nil => intro _; rfl
  | cons c t ih =>
    intro h
    rw [show searchPos (.lit ('{' :: cs0) :: ps) (c :: t) =
        (match matchAtoms (.lit ('{' :: cs0) :: ps) (c :: t) with
         | some r => some (0, r)
         | none => (searchPos (.lit ('{' :: cs0) :: ps) t).map
             (fun p => (p.1 + 1, p.2))) from rfl]
    rw [matchLitBraceNone cs0 ps c t (h c (List.mem_cons_self c t))]
    rw [ih (fun c2 hc2 => h c2 (List.mem_cons_of_mem c hc2))]
    rfl

theorem searchPos_single_none (cs0 : List Char) (ps : List RAtom) (pre R : List Char)
    (hpre : ∀ c ∈ pre, ¬(c = '{')) (hR : ∀ c ∈ R, ¬(c = '{'))
    (hm0 : matchAtoms (.lit ('{' :: cs0) :: ps) ('{' :: R) = none) :
    searchPos (.lit ('{' :: cs0) :: ps) (pre ++ '{' :: R) = none := by
  rw [searchPos_skip cs0 ps pre hpre ('{' :: R)]
  rw [show searchPos (.lit ('{' :: cs0) :: ps) ('{' :: R) =
      (match matchAtoms (.lit ('{' :: cs0) :: ps) ('{' :: R) with
       | some r => some (0, r)
       | none => (searchPos (.lit ('{' :: cs0) :: ps) R).map
           (fun p => (p.1 + 1, p.2))) from rfl]
  rw [hm0, searchPos_nobrace cs0 ps R hR]
  rfl

theorem replaceAllCore_id (pat : List RAtom) (rep : List Char) :
    ∀ (fuel : Nat) (s : List Char), searchPos pat s = none →
      replaceAllCore pat rep fuel s = s := by
  intro fuel
  cases fuel with
  | zero => intro s _; rfl
  | succ f =>
    intro s h
    simp only [replaceAllCore]
    rw [h]

theorem replaceAllGo_id (pat : List RAtom) (rep s : List Char)
    (h : searchPos pat s = none) : replaceAllGo pat rep s = s :=
  replaceAllCore_id pat rep (s.length + 1) s h

theorem replaceAllCore_step (pat : List RAtom) (fuel : Nat) (s rest : List Char) (pos : Nat)
    (hs : searchPos pat s = some (pos, ⟨rest, none, none⟩)) (hne : ¬(s = []))
    (hlen : ¬((s.drop pos).length - rest.length = 0)) :
    replaceAllCore pat [] (fuel + 1) s =
      s.take pos ++
        replaceAllCore pat [] fuel (s.drop (pos + ((s.drop pos).length - rest.length))) := by
  simp only [replaceAllCore]
  rw [hs]
  show (if s = [] then [] else
      if (s.drop pos).length - rest.length = 0 then
        s.take pos ++ [] ++ (s.drop pos).take 1 ++ replaceAllCore pat [] fuel (s.drop (pos + 1))
      else
        s.take pos ++ [] ++
          replaceAllCore pat [] fuel (s.drop (pos + ((s.drop pos).length - rest.length)))) = _
  rw [if_neg hne, if_neg hlen]
  simp

theorem replaceAllGo_single (cs0 : List Char) (ps : List RAtom) (pre conc2 suf : List Char)
    (hpre : ∀ c ∈ pre, ¬(c = '{')) (hsuf : ∀ c ∈ suf, ¬(c = '{'))
    (hm : matchAtoms (.lit ('{' :: cs0) :: ps) ('{' :: (conc2 ++ suf)) = some ⟨suf, none, none⟩) :
    replaceAllGo (.lit ('{' :: cs0) :: ps) [] (pre ++ '{' :: (conc2 ++ suf)) = pre ++ suf := by
  have hsearch : searchPos (.lit ('{' :: cs0) :: ps) (pre ++ '{' :: (conc2 ++ suf)) =
      some (pre.length, ⟨suf, none, none⟩) := by
    rw [searchPos_skip cs0 ps pre hpre ('{' :: (conc2 ++ suf))]
    rw [show searchPos (.lit ('{' :: cs0) :: ps) ('{' :: (conc2 ++ suf)) =
        (match matchAtoms (.lit ('{' :: cs0) :: ps) ('{' :: (conc2 ++ suf)) with
         | some r => some (0, r)
         | none => (searchPos (.lit ('{' :: cs0) :: ps) (conc2 ++ suf)).map
             (fun p => (p.1 + 1, p.2))) from rfl]
    rw [hm]
    simp
  have hdrop : (pre ++ '{' :: (conc2 ++ suf)).drop pre.length = '{' :: (conc2 ++ suf) :=
    List.drop_left pre _
  have hlen : (('{' :: (conc2 ++ suf)) : List Char).length - suf.length = conc2.length + 1 := by
    simp [List.length_append]
    omega
  rw [show replaceAllGo (.lit ('{' :: cs0) :: ps) [] (pre ++ '{' :: (conc2 ++ suf)) =
      replaceAllCore (.lit ('{' :: cs0) :: ps) []
        ((pre ++ '{' :: (conc2 ++ suf)).length + 1) (pre ++ '{' :: (conc2 ++ suf)) from rfl]
  rw [replaceAllCore_step _ _ _ suf pre.length hsearch (by simp)
    (by rw [hdrop, hlen]; omega)]
  rw [hdrop, hlen, List.take_left]
  have hdropall : (pre ++ '{' :: (conc2 ++ suf)).drop (pre.length + (conc2.length + 1)) = suf := by
    rw [show pre ++ '{' :: (conc2 ++ suf) = (pre ++ '{' :: conc2) ++ suf from by simp]
    rw [show pre.length + (conc2.length + 1) = (pre ++ '{' :: conc2).length from by
      simp [List.length_append]]
    exact List.drop_left _ _
  rw [hdropall]
  rw [replaceAllCore_id _ _ _ suf (searchPos_nobrace cs0 ps suf hsuf)]

theorem noBraceOf {l : List Char} (h : l.all (fun c => !(c == '{')) = true) :
    ∀ c ∈ l, ¬(c = '{') := by
  intro c hc he
  have h2 := List.all_eq_true.mp h c hc
  subst he
  simp at h2

theorem nilIsPrefixOf (l : List Char) : List.isPrefixOf ([] : List Char) l = true := by
  cases l <;> rfl

theorem hasSubBrace (rest : List Char) : hasSub "\x7b".data ('{' :: rest) = true := by
  show (List.isPrefixOf "\x7b".data ('{' :: rest) || hasSub "\x7b".data rest) = true
  rw [show List.isPrefixOf "\x7b".data ('{' :: rest) =
      (('{' == '{') && List.isPrefixOf ([] : List Char) rest) from rfl]
  rw [nilIsPrefixOf]
  rfl

theorem hasSub_append_right (pat A B : List Char) (h : hasSub pat B = true) :
    hasSub pat (A ++ B) = true := by
  induction A with
  | nil => exact h
  | cons a A ih =>
    show (List.isPrefixOf pat (a :: (A ++ B)) || hasSub pat (A ++ B)) = true
    rw [ih]
    exact Bool.or_true _

theorem hasPrefixGo_append_self (o B : List Char) : hasPrefixGo o (o ++ B) = true := by
  induction o with
  | nil => rfl
  | cons c o ih =>
    show (c == c && hasPrefixGo o (o ++ B)) = true
    rw [ih, beq_self_eq_true]
    rfl

theorem replaceSubAux_nobrace (o new : List Char) :
    ∀ (fuel : Nat) (s : List Char), (∀ c ∈ s, ¬(c = '{')) →
      replaceSubAux ('{' :: o) new fuel s = s := by
  intro fuel
  induction fuel with
  | zero => intro s _; rfl
  | succ f ih =>
    intro s hs
    cases s with
    | nil => rfl
    | cons c cs =>
      show (if hasPrefixGo ('{' :: o) (c :: cs) then
          new ++ replaceSubAux ('{' :: o) new f ((c :: cs).drop ('{' :: o).length)
        else c :: replaceSubAux ('{' :: o) new f cs) = c :: cs
      rw [show hasPrefixGo ('{' :: o) (c :: cs) = (('{' == c) && hasPrefixGo o cs) from rfl]
      rw [show ('{' == c) = false from
        beq_eq_false_iff_ne.mpr (fun he => hs c (List.mem_cons_self c cs) he.symm)]
      rw [Bool.false_and]
      rw [if_neg (by simp)]
      rw [ih cs (fun c2 hc2 => hs c2 (List.mem_cons_of_mem c hc2))]

theorem replaceSubAux_miss (o new : List Char) :
    ∀ (fuel : Nat) (A R : List Char), (∀ c ∈ A, ¬(c = '{')) → (∀ c ∈ R, ¬(c = '{')) →
      hasPrefixGo o R = false →
      replaceSubAux ('{' :: o) new fuel (A ++ '{' :: R) = A ++ '{' :: R := by
  intro fuel A
  induction A generalizing fuel with
  | nil =>
    intro R _ hR hm
    cases fuel with
    | zero => rfl
    | succ f =>
      show (if hasPrefixGo ('{' :: o) ('{' :: R) then
          new ++ replaceSubAux ('{' :: o) new f (('{' :: R).drop ('{' :: o).length)
        else '{' :: replaceSubAux ('{' :: o) new f R) = '{' :: R
      rw [show hasPrefixGo ('{' :: o) ('{' :: R) = hasPrefixGo o R from rfl]
      rw [hm]
      rw [if_neg (by simp)]
      rw [replaceSubAux_nobrace o new f R hR]
  | cons a A ih =>
    intro R hA hR hm
    cases fuel with
    | zero => rfl
    | succ f =>
      show (if hasPrefixGo ('{' :: o) (a :: (A ++ '{' :: R)) then
          new ++ replaceSubAux ('{' :: o) new f ((a :: (A ++ '{' :: R)).drop ('{' :: o).length)
        else a :: replaceSubAux ('{' :: o) new f (A ++ '{' :: R)) = a :: (A ++ '{' :: R)
      rw [show hasPrefixGo ('{' :: o) (a :: (A ++ '{' :: R)) =
          (('{' == a) && hasPrefixGo o (A ++ '{' :: R)) from rfl]
      rw [show ('{' == a) = false from
        beq_eq_false_iff_ne.mpr (fun he => hA a (List.mem_cons_self a A) he.symm)]
      rw [Bool.false_and]
      rw [if_neg (by simp)]
      rw [ih f R (fun c hc => hA c (List.mem_cons_of_mem a hc)) hR hm]

theorem replaceAllSub_miss (o new A R : List Char)
    (hA : ∀ c ∈ A, ¬(c = '{')) (hR : ∀ c ∈ R, ¬(c = '{'))
    (hm : hasPrefixGo o R = false) :
    replaceAllSub ('{' :: o) new (A ++ '{' :: R) = A ++ '{' :: R :=
  replaceSubAux_miss o new _ A R hA hR hm

theorem replaceSubAux_hit (o new : List Char) :
    ∀ (fuel : Nat) (A B : List Char), (∀ c ∈ A, ¬(c = '{')) → (∀ c ∈ B, ¬(c = '{')) →
      A.length + 1 ≤ fuel →
      replaceSubAux ('{' :: o) new fuel (A ++ ('{' :: o) ++ B) = A ++ new ++ B := by
  intro fuel A
  induction A generalizing fuel with
  | nil =>
    intro B _ hB hf
    cases fuel with
    | zero => omega
    | succ f =>
      rw [List.nil_append]
      show (if hasPrefixGo ('{' :: o) (('{' :: o) ++ B) then
          new ++ replaceSubAux ('{' :: o) new f ((('{' :: o) ++ B).drop ('{' :: o).length)
        else _) = [] ++ new ++ B
      rw [hasPrefixGo_append_self ('{' :: o) B]
      rw [if_pos rfl]
      rw [List.drop_left ('{' :: o) B]
      rw [replaceSubAux_nobrace o new f B hB]
      simp
  | cons a A ih =>
    intro B hA hB hf
    cases fuel with
    | zero => omega
    | succ f =>
      show (if hasPrefixGo ('{' :: o) (a :: (A ++ ('{' :: o) ++ B)) then _
        else a :: replaceSubAux ('{' :: o) new f (A ++ ('{' :: o) ++ B)) =
        (a :: A) ++ new ++ B
      rw [show hasPrefixGo ('{' :: o) (a :: (A ++ ('{' :: o) ++ B)) =
          (('{' == a) && hasPrefixGo o (A ++ ('{' :: o) ++ B)) from rfl]
      rw [show ('{' == a) = false from
        beq_eq_false_iff_ne.mpr (fun he => hA a (List.mem_cons_self a A) he.symm)]
      rw [Bool.false_and]
      rw [if_neg (by simp)]
      rw [ih f B (fun c hc => hA c (List.mem_cons_of_mem a hc)) hB (by simp at hf; omega)]
      simp

theorem replaceAllSub_hit (o new A B : List Char)
    (hA : ∀ c ∈ A, ¬(c = '{')) (hB : ∀ c ∈ B, ¬(c = '{')) :
    replaceAllSub ('{' :: o) new (A ++ ('{' :: o) ++ B) = A ++ new ++ B :=
  replaceSubAux_hit o new _ A B hA hB (by simp [List.length_append])

theorem sevenMiss (t1 t2 t3 t4 t5 t6 t7 : List Char) (A R : List Char)
    (hA : ∀ c ∈ A, ¬(c = '{')) (hR : ∀ c ∈ R, ¬(c = '{'))
    (h1 : hasPrefixGo "title\x7d".data R = false)
    (h2 : hasPrefixGo "artist\x7d".data R = false)
    (h3 : hasPrefixGo "album\x7d".data R = false)
    (h4 : hasPrefixGo "album_artist\x7d".data R = false)
    (h5 : hasPrefixGo "year\x7d".data R = false)
    (h6 : hasPrefixGo "playlist\x7d".data R = false)
    (h7 : hasPrefixGo "creator\x7d".data R = false) :
    replaceAllSub "{creator}".data t7 (replaceAllSub "{playlist}".data t6
      (replaceAllSub "{year}".data t5 (replaceAllSub "{album_artist}".data t4
      (replaceAllSub "{album}".data t3 (replaceAllSub "{artist}".data t2
      (replaceAllSub "{title}".data t1 (A ++ '{' :: R))))))) = A ++ '{' :: R := by
  rw [replaceAllSub_miss "title\x7d".data t1 A R hA hR h1]
  rw [replaceAllSub_miss "artist\x7d".data t2 A R hA hR h2]
  rw [replaceAllSub_miss "album\x7d".data t3 A R hA hR h3]
  rw [replaceAllSub_miss "album_artist\x7d".data t4 A R hA hR h4]
  rw [replaceAllSub_miss "year\x7d".data t5 A R hA hR h5]
  rw [replaceAllSub_miss "playlist\x7d".data t6 A R hA hR h6]
  rw [replaceAllSub_miss "creator\x7d".data t7 A R hA hR h7]

theorem discMiss (disc : Int) (dNew : List Char) (A R : List Char)
    (hA : ∀ c ∈ A, ¬(c = '{')) (hR : ∀ c ∈ R, ¬(c = '{'))
    (h8 : hasPrefixGo "disc\x7d".data R = false) :
    (if 0 < disc then replaceAllSub "{disc}".data dNew (A ++ '{' :: R)
     else replaceAllSub "{disc}".data [] (A ++ '{' :: R)) = A ++ '{' :: R := by
  by_cases hd : 0 < disc
  · rw [if_pos hd]
    exact replaceAllSub_miss _ _ _ _ hA hR h8
  · rw [if_neg hd]
    exact replaceAllSub_miss _ _ _ _ hA hR h8

/-- C9, amended: in placeholder templates with a zero (absent) position,
`{track}` is removed together with the connector text directly bound to it
(a trailing ". ", a " - ", or trailing whitespace), for any brace-free
prefix and suffix whose suffix starts with no whitespace or dash; a zero
disc number removes only the `{disc}` placeholder itself, leaving adjacent
connector text in place. -/
theorem C9_absent_number_removal
    (tn an al aa rd pn po : String) (itn uatn : Bool) (disc : Int)
    (pre suf : String)
    (hpre : pre.data.all (fun c => !(c == '{')) = true)
    (hsuf : suf.data.all (fun c => !(c == '{')) = true)
    (htw : suf.data.takeWhile reWS = [])
    (hdash : suf.data.head?.all (fun c => !(c == '-')) = true) :
    (BuildExpectedFilename tn an al aa rd ⟨pre.data ++ "{track}. ".data ++ suf.data⟩
        pn po itn 0 disc uatn = ⟨pre.data ++ suf.data ++ ".flac".data⟩) ∧
    (BuildExpectedFilename tn an al aa rd ⟨pre.data ++ "{track} - ".data ++ suf.data⟩
        pn po itn 0 disc uatn = ⟨pre.data ++ suf.data ++ ".flac".data⟩) ∧
    (BuildExpectedFilename tn an al aa rd ⟨pre.data ++ "{track} ".data ++ suf.data⟩
        pn po itn 0 disc uatn = ⟨pre.data ++ suf.data ++ ".flac".data⟩) ∧
    (BuildExpectedFilename tn an al aa rd ⟨pre.data ++ "{disc}. ".data ++ suf.data⟩
        pn po itn 0 0 uatn = ⟨pre.data ++ ". ".data ++ suf.data ++ ".flac".data⟩) := by
  have hA : ∀ c ∈ pre.data, ¬(c = '{') := noBraceOf hpre
  have hB : ∀ c ∈ suf.data, ¬(c = '{') := noBraceOf hsuf
  have hAB : ∀ c ∈ pre.data ++ suf.data, ¬(c = '{') := by
    intro c hc
    rcases List.mem_append.mp hc with h | h
    · exact hA c h
    · exact hB c h
  refine ⟨?_, ?_, ?_, ?_⟩
  · -- template "{track}. "
    have hR : ∀ c ∈ "track\x7d. ".data ++ suf.data, ¬(c = '{') := by
      intro c hc
      rcases List.mem_append.mp hc with h | h
      · exact noBraceOf (by rfl) c h
      · exact hB c h
    simp only [BuildExpectedFilename, stringDataMk]
    rw [show pre.data ++ "{track}. ".data ++ suf.data =
        pre.data ++ '{' :: ("track\x7d. ".data ++ suf.data) from by simp]
    rw [show hasSub "\x7b".data (pre.data ++ '{' :: ("track\x7d. ".data ++ suf.data)) = true from
      hasSub_append_right _ _ _ (hasSubBrace _)]
    rw [if_pos rfl]
    rw [sevenMiss _ _ _ _ _ _ _ pre.data _ hA hR rfl rfl rfl rfl rfl rfl rfl]
    rw [discMiss disc _ pre.data _ hA hR rfl]
    rw [if_neg (show ¬((0 : Int) < 0) from by omega)]
    rw [show replaceAllGo P_trackDot []
          (pre.data ++ '{' :: ("track\x7d. ".data ++ suf.data)) = pre.data ++ suf.data from
      replaceAllGo_single "track\x7d.".data [star reWS] pre.data "track\x7d. ".data suf.data
        hA hB (matchDotAt suf.data htw)]
    rw [show replaceAllGo P_trackDash [] (pre.data ++ suf.data) = pre.data ++ suf.data from
      replaceAllGo_id _ _ _
        (searchPos_nobrace "track\x7d".data [star reWS, .lit "-".data, star reWS] _ hAB)]
    rw [show replaceAllGo P_trackWSP [] (pre.data ++ suf.data) = pre.data ++ suf.data from
      replaceAllGo_id _ _ _ (searchPos_nobrace "track\x7d".data [star reWS] _ hAB)]
  · -- template "{track} - "
    have hR : ∀ c ∈ "track\x7d - ".data ++ suf.data, ¬(c = '{') := by
      intro c hc
      rcases List.mem_append.mp hc with h | h
      · exact noBraceOf (by rfl) c h
      · exact hB c h
    simp only [BuildExpectedFilename, stringDataMk]
    rw [show pre.data ++ "{track} - ".data ++ suf.data =
        pre.data ++ '{' :: ("track\x7d - ".data ++ suf.data) from by simp]
    rw [show hasSub "\x7b".data (pre.data ++ '{' :: ("track\x7d - ".data ++ suf.data)) = true from
      hasSub_append_right _ _ _ (hasSubBrace _)]
    rw [if_pos rfl]
    rw [sevenMiss _ _ _ _ _ _ _ pre.data _ hA hR rfl rfl rfl rfl rfl rfl rfl]
    rw [discMiss disc _ pre.data _ hA hR rfl]
    rw [if_neg (show ¬((0 : Int) < 0) from by omega)]
    rw [show replaceAllGo P_trackDot []
          (pre.data ++ '{' :: ("track\x7d - ".data ++ suf.data)) =
        pre.data ++ '{' :: ("track\x7d - ".data ++ suf.data) from
      replaceAllGo_id _ _ _
        (searchPos_single_none "track\x7d.".data [star reWS] pre.data _ hA hR
          (matchDotNoneDash suf.data))]
    rw [show replaceAllGo P_trackDash []
          (pre.data ++ '{' :: ("track\x7d - ".data ++ suf.data)) = pre.data ++ suf.data from
      replaceAllGo_single "track\x7d".data [star reWS, .lit "-".data, star reWS] pre.data
        "track\x7d - ".data suf.data hA hB (matchDashAt suf.data htw)]
    rw [show replaceAllGo P_trackWSP [] (pre.data ++ suf.data) = pre.data ++ suf.data from
      replaceAllGo_id _ _ _ (searchPos_nobrace "track\x7d".data [star reWS] _ hAB)]
  · -- template "{track} "
    have hR : ∀ c ∈ "track\x7d ".data ++ suf.data, ¬(c = '{') := by
      intro c hc
      rcases List.mem_append.mp hc with h | h
      · exact noBraceOf (by rfl) c h
      · exact hB c h
    simp only [BuildExpectedFilename, stringDataMk]
    rw [show pre.data ++ "{track} ".data ++ suf.data =
        pre.data ++ '{' :: ("track\x7d ".data ++ suf.data) from by simp]
    rw [show hasSub "\x7b".data (pre.data ++ '{' :: ("track\x7d ".data ++ suf.data)) = true from
      hasSub_append_right _ _ _ (hasSubBrace _)]
    rw [if_pos rfl]
    rw [sevenMiss _ _ _ _ _ _ _ pre.data _ hA hR rfl rfl rfl rfl rfl rfl rfl]
    rw [discMiss disc _ pre.data _ hA hR rfl]
    rw [if_neg (show ¬((0 : Int) < 0) from by omega)]
    rw [show replaceAllGo P_trackDot []
          (pre.data ++ '{' :: ("track\x7d ".data ++ suf.data)) =
        pre.data ++ '{' :: ("track\x7d ".data ++ suf.data) from
      replaceAllGo_id _ _ _
        (searchPos_single_none "track\x7d.".data [star reWS] pre.data _ hA hR
          (matchDotNoneWSP suf.data))]
    rw [show replaceAllGo P_trackDash []
          (pre.data ++ '{' :: ("track\x7d ".data ++ suf.data)) =
        pre.data ++ '{' :: ("track\x7d ".data ++ suf.data) from
      replaceAllGo_id _ _ _
        (searchPos_single_none "track\x7d".data [star reWS, .lit "-".data, star reWS]
          pre.data _ hA hR (matchDashNone suf.data htw hdash))]
    rw [show replaceAllGo P_trackWSP []
          (pre.data ++ '{' :: ("track\x7d ".data ++ suf.data)) = pre.data ++ suf.data from
      replaceAllGo_single "track\x7d".data [star reWS] pre.data "track\x7d ".data suf.data
        hA hB (matchWSPAt suf.data htw)]
  · -- template "{disc}. "
    have hR : ∀ c ∈ "disc\x7d. ".data ++ suf.data, ¬(c = '{') := by
      intro c hc
      rcases List.mem_append.mp hc with h | h
      · exact noBraceOf (by rfl) c h
      · exact hB c h
    have hB4 : ∀ c ∈ ". ".data ++ suf.data, ¬(c = '{') := by
      intro c hc
      rcases List.mem_append.mp hc with h | h
      · exact noBraceOf (by rfl) c h
      · exact hB c h
    have hAB4 : ∀ c ∈ pre.data ++ (". ".data ++ suf.data), ¬(c = '{') := by
      intro c hc
      rcases List.mem_append.mp hc with h | h
      · exact hA c h
      · exact hB4 c h
    simp only [BuildExpectedFilename, stringDataMk]
    rw [show pre.data ++ "{disc}. ".data ++ suf.data =
        pre.data ++ '{' :: ("disc\x7d. ".data ++ suf.data) from by simp]
    rw [show hasSub "\x7b".data (pre.data ++ '{' :: ("disc\x7d. ".data ++ suf.data)) = true from
      hasSub_append_right _ _ _ (hasSubBrace _)]
    rw [if_pos rfl]
    rw [sevenMiss _ _ _ _ _ _ _ pre.data _ hA hR rfl rfl rfl rfl rfl rfl rfl]
    rw [if_neg (show ¬((0 : Int) < 0) from by omega)]
    rw [show pre.data ++ '{' :: ("disc\x7d. ".data ++ suf.data) =
        pre.data ++ ('{' :: "disc\x7d".data) ++ (". ".data ++ suf.data) from by simp]
    rw [show replaceAllSub "{disc}".data []
          (pre.data ++ ('{' :: "disc\x7d".data) ++ (". ".data ++ suf.data)) =
        pre.data ++ [] ++ (". ".data ++ suf.data) from
      replaceAllSub_hit "disc\x7d".data [] pre.data (". ".data ++ suf.data) hA hB4]
    rw [List.append_nil]
    rw [if_neg (show ¬((0 : Int) < 0) from by omega)]
    rw [show replaceAllGo P_trackDot [] (pre.data ++ (". ".data ++ suf.data)) =
        pre.data ++ (". ".data ++ suf.data) from
      replaceAllGo_id _ _ _
        (searchPos_nobrace "track\x7d.".data [star reWS] _ hAB4)]
    rw [show replaceAllGo P_trackDash [] (pre.data ++ (". ".data ++ suf.data)) =
        pre.data ++ (". ".data ++ suf.data) from
      replaceAllGo_id _ _ _
        (searchPos_nobrace "track\x7d".data [star reWS, .lit "-".data, star reWS] _ hAB4)]
    rw [show replaceAllGo P_trackWSP [] (pre.data ++ (". ".data ++ suf.data)) =
        pre.data ++ (". ".data ++ suf.data) from
      replaceAllGo_id _ _ _ (searchPos_nobrace "track\x7d".data [star reWS] _ hAB4)]
    simp [List.append_assoc]

/-- C9, counterexample: with a zero disc number the `{disc}` placeholder is
replaced by the empty string but its adjacent connector text is kept, so
the template `{disc}. {title}` renders a dangling ". " instead of removing
the connector. -/
theorem C9_cex_disc_zero_keeps_connector :
    BuildExpectedFilename "Song" "Artist" "Album" "AlbArt" "2020-03-04" "{disc}. {title}"
      "PL" "Own" true 5 0 false = ". Song.flac" := by
  rfl

/-- C9 witness: a concrete template around `{track}` with a zero position;
the placeholder and its ". " connector vanish from the output. -/
theorem C9_witness_track_connector :
    (("x" : String).data.all (fun c => !(c == '{')) = true ∧
     ("y" : String).data.all (fun c => !(c == '{')) = true ∧
     ("y" : String).data.takeWhile reWS = [] ∧
     ("y" : String).data.head?.all (fun c => !(c == '-')) = true) ∧
    BuildExpectedFilename "t" "a" "b" "c" "2020" "x{track}. y" "p" "o" true 0 5 false
      = "xy.flac" := by
  refine ⟨⟨rfl, rfl, rfl, rfl⟩, ?_⟩
  have h := (C9_absent_number_removal "t" "a" "b" "c" "2020" "p" "o" true false 5
    "x" "y" rfl rfl rfl rfl).1
  rw [show ("x{track}. y" : String) =
      (⟨("x" : String).data ++ "{track}. ".data ++ ("y" : String).data⟩ : String) from rfl]
  rw [h]
  rfl

/-- C6: on an entry whose search call errors three times while the next
entry succeeds, each failure is classified rate-limited exactly when its
lowercased text contains "429", "rate", "too many" or "quota"; a
rate-limited failure waits `10000 * attempt` ms and a non-rate-limited
failure with attempts remaining waits `1500 * attempt` ms; after the three
failed attempts the entry is abandoned (not in the matched set) and the run
advances to the next index, which is matched (4 calls in total). -/
theorem C6_retry_backoff_and_abandon
    (oracle : Nat → Nat → SearchOutcome) (m1 m2 m3 : String) (t : STrack)
    (e0 e1 : BillboardEntryTS) (tr0 tr1 : TrackMetadata)
    (ho0 : oracle 0 0 = .err m1) (ho1 : oracle 0 1 = .err m2)
    (ho2 : oracle 0 2 = .err m3) (ho3 : oracle 1 0 = .ok [t])
    (ht : ¬(t.id = "")) :
    (matchWithSpotify oracle (fun _ => false) [e0, e1] [tr0, tr1] 0 [] 0).calls = 4 ∧
    (matchWithSpotify oracle (fun _ => false) [e0, e1] [tr0, tr1] 0 [] 0).matchedIdx = [1] ∧
    (matchWithSpotify oracle (fun _ => false) [e0, e1] [tr0, tr1] 0 [] 0).matched = 1 ∧
    (matchWithSpotify oracle (fun _ => false) [e0, e1] [tr0, tr1] 0 [] 0).delays =
      [(if (hasSub "429".data (toLowerGo m1.data) || hasSub "rate".data (toLowerGo m1.data) ||
           hasSub "too many".data (toLowerGo m1.data) || hasSub "quota".data (toLowerGo m1.data))
          then RATE_LIMIT_DELAY else BASE_DELAY) * 1,
       (if (hasSub "429".data (toLowerGo m2.data) || hasSub "rate".data (toLowerGo m2.data) ||
           hasSub "too many".data (toLowerGo m2.data) || hasSub "quota".data (toLowerGo m2.data))
          then RATE_LIMIT_DELAY else BASE_DELAY) * 2] ++
      (if (hasSub "429".data (toLowerGo m3.data) || hasSub "rate".data (toLowerGo m3.data) ||
           hasSub "too many".data (toLowerGo m3.data) || hasSub "quota".data (toLowerGo m3.data))
          then [RATE_LIMIT_DELAY * 3] else []) ++ [BASE_DELAY] := by
  have hr1 : isRateLimited m1 = (hasSub "429".data (toLowerGo m1.data) ||
      hasSub "rate".data (toLowerGo m1.data) || hasSub "too many".data (toLowerGo m1.data) ||
      hasSub "quota".data (toLowerGo m1.data)) := rfl
  have hr2 : isRateLimited m2 = (hasSub "429".data (toLowerGo m2.data) ||
      hasSub "rate".data (toLowerGo m2.data) || hasSub "too many".data (toLowerGo m2.data) ||
      hasSub "quota".data (toLowerGo m2.data)) := rfl
  have hr3 : isRateLimited m3 = (hasSub "429".data (toLowerGo m3.data) ||
      hasSub "rate".data (toLowerGo m3.data) || hasSub "too many".data (toLowerGo m3.data) ||
      hasSub "quota".data (toLowerGo m3.data)) := rfl
  rw [← hr1, ← hr2, ← hr3]
  by_cases h1 : isRateLimited m1 = true <;> by_cases h2 : isRateLimited m2 = true <;>
    by_cases h3 : isRateLimited m3 = true <;>
      simp [matchWithSpotify, runFrom, attemptLoop, addIdx, MAX_RETRIES, BASE_DELAY,
        RATE_LIMIT_DELAY, h1, h2, h3, ho0, ho1, ho2, ho3, ht]

theorem runFrom_skip (oracle : Nat → Nat → SearchOutcome) (stop : Nat → Bool) (n : Nat) :
    ∀ (fuel i : Nat) (st : MatchState), i + fuel = n →
      (∀ j, j < n → st.matchedIdx.contains j = true) →
      (runFrom oracle stop n fuel i st).calls = st.calls ∧
      (runFrom oracle stop n fuel i st).matched = st.matched := by
  intro fuel
  induction fuel with
  | zero => intro i st _ _; exact ⟨rfl, rfl⟩
  | succ f ih =>
    intro i st hfi hall
    by_cases hs : stop st.ticks = true
    · simp only [runFrom, if_pos hs]
      exact ⟨trivial, trivial⟩
    · simp only [runFrom, if_neg hs]
      rw [if_pos (show ({ st with ticks := st.ticks + 1 } : MatchState).matchedIdx.contains i
        = true from hall i (by omega))]
      exact ih (i + 1) _ (by omega) hall

theorem attemptLoop_inv (oracle : Nat → Nat → SearchOutcome) (stop : Nat → Bool) (i : Nat) :
    ∀ (fuel rc : Nat) (st : MatchState), INV st → st.matchedIdx.contains i = false →
      INV (attemptLoop oracle stop i fuel rc st) := by
  intro fuel
  induction fuel with
  | zero => intro rc st h _; exact h
  | succ f ih =>
    intro rc st h hi
    obtain ⟨h1, h2, h3, h4, h5⟩ := h
    by_cases hs : stop st.ticks = true
    · simp only [attemptLoop, if_pos hs]
      exact ⟨h1, h2, h3, h4, h5⟩
    · simp only [attemptLoop, if_neg hs]
      cases ho : oracle i rc with
      | ok ts =>
        cases ts with
        | nil => exact ⟨h1, h2, h3, h4, h5⟩
        | cons t rest =>
          dsimp only
          by_cases hid : t.id = ""
          · rw [if_pos hid]
            exact ⟨h1, h2, h3, h4, h5⟩
          · rw [if_neg hid]
            have hadd : addIdx st.matchedIdx i = st.matchedIdx ++ [i] := by
              unfold addIdx
              rw [hi]
              rfl
            have hnotmem : ¬(i ∈ st.matchedIdx) := by
              intro hmem
              rw [List.contains_eq_any_beq] at hi
              simp [List.any_eq_true] at hi
              exact hi i hmem rfl
            refine ⟨?_, ?_, ?_, ?_, ?_⟩
            · show st.matched + 1 = (addIdx st.matchedIdx i).length
              rw [hadd, List.length_append, h1]
              rfl
            · show (addIdx st.matchedIdx i).Nodup
              rw [hadd]
              exact List.Nodup.append h2 (List.nodup_singleton i)
                (by simp [List.disjoint_singleton, hnotmem])
            · intro p hp
              rcases List.mem_append.mp hp with hp1 | hp1
              · exact h3 p hp1
              · rcases List.mem_singleton.mp hp1 with rfl
                show st.matched + 1 = (addIdx st.matchedIdx i).length
                rw [hadd, List.length_append, h1]
                rfl
            · rw [List.chain'_append]
              refine ⟨h4, List.chain'_singleton _, ?_⟩
              intro x hx y hy
              rcases List.mem_singleton.mp (by
                have : y ∈ [(st.matched + 1, addIdx st.matchedIdx i)] :=
                  List.mem_of_mem_head? hy
                exact this) with rfl
              have hx2 := h5 x (Option.mem_def.mp hx)
              rw [hx2, hadd]
              exact ⟨[i], rfl⟩
            · intro p hp
              rw [List.getLast?_concat] at hp
              cases hp
              rfl
      | err msg =>
        dsimp only
        by_cases hrl : isRateLimited msg = true
        · rw [if_pos hrl]
          exact ih (rc + 1) _ ⟨h1, h2, h3, h4, h5⟩ hi
        · rw [if_neg hrl]
          by_cases hlt : rc + 1 < MAX_RETRIES
          · rw [if_pos hlt]
            exact ih (rc + 1) _ ⟨h1, h2, h3, h4, h5⟩ hi
          · rw [if_neg hlt]
            exact ih (rc + 1) _ ⟨h1, h2, h3, h4, h5⟩ hi

theorem runFrom_inv (oracle : Nat → Nat → SearchOutcome) (stop : Nat → Bool) (n : Nat) :
    ∀ (fuel i : Nat) (st : MatchState), INV st →
      INV (runFrom oracle stop n fuel i st) := by
  intro fuel
  induction fuel with
  | zero => intro i st h; exact h
  | succ f ih =>
    intro i st h
    by_cases hs : stop st.ticks = true
    · simp only [runFrom, if_pos hs]
      exact h
    · simp only [runFrom, if_neg hs]
      by_cases hc : ({ st with ticks := st.ticks + 1 } : MatchState).matchedIdx.contains i = true
      · rw [if_pos hc]
        exact ih (i + 1) _ h
      · rw [if_neg hc]
        have hc2 : st.matchedIdx.contains i = false := by
          cases hx : st.matchedIdx.contains i
          · rfl
          · exact absurd hx hc
        have hinv2 : INV (attemptLoop oracle stop i MAX_RETRIES 0
            { st with ticks := st.ticks + 1 }) :=
          attemptLoop_inv oracle stop i MAX_RETRIES 0 _ h hc2
        by_cases hil : i < n - 1
        · rw [if_pos hil]
          by_cases hs2 : stop (attemptLoop oracle stop i MAX_RETRIES 0
              { st with ticks := st.ticks + 1 }).ticks = true
          · rw [if_pos hs2]
            exact ih (i + 1) _ hinv2
          · rw [if_neg hs2]
            exact ih (i + 1) _ hinv2
        · rw [if_neg hil]
          exact ih (i + 1) _ hinv2

/-- C7: a run over an entry list whose matched-index set already contains
every index performs zero search calls and ends with the matched count it
started with, for every oracle and every stop behaviour. -/
theorem C7_fully_matched_no_calls (oracle : Nat → Nat → SearchOutcome) (stop : Nat → Bool)
    (entries : List BillboardEntryTS) (tracks : List TrackMetadata)
    (startIndex : Nat) (initIdx : List Nat) (initCount : Nat)
    (hall : ∀ j, j < entries.length → initIdx.contains j = true) :
    (matchWithSpotify oracle stop entries tracks startIndex initIdx initCount).calls = 0 ∧
    (matchWithSpotify oracle stop entries tracks startIndex initIdx initCount).matched
      = initCount := by
  unfold matchWithSpotify
  rcases le_or_lt startIndex entries.length with hle | hgt
  · exact runFrom_skip oracle stop entries.length (entries.length - startIndex) startIndex
      _ (by omega) hall
  · rw [show entries.length - startIndex = 0 from by omega]
    exact ⟨rfl, rfl⟩

/-- C10: if a run starts with its matched count equal to the cardinality of
its (duplicate-free) matched-index set, then every published
count/index-set pair agrees (`count = |set|`), the published sets grow
monotonically (each is a prefix of the next, indices never removed), and at
the end the count still equals the cardinality of the set. -/
theorem C10_published_count_invariant (oracle : Nat → Nat → SearchOutcome) (stop : Nat → Bool)
    (entries : List BillboardEntryTS) (tracks : List TrackMetadata)
    (startIndex : Nat) (initIdx : List Nat) (initCount : Nat)
    (hc : initCount = initIdx.length) (hnd : initIdx.Nodup) :
    (∀ p ∈ (matchWithSpotify oracle stop entries tracks startIndex initIdx initCount).pubs,
       p.1 = p.2.length) ∧
    List.Chain' (fun a b => a.2 <+: b.2)
      (matchWithSpotify oracle stop entries tracks startIndex initIdx initCount).pubs ∧
    (matchWithSpotify oracle stop entries tracks startIndex initIdx initCount).matched =
      (matchWithSpotify oracle stop entries tracks startIndex initIdx
        initCount).matchedIdx.length := by
  have h := runFrom_inv oracle stop entries.length (entries.length - startIndex) startIndex
    { tracks := tracks, matchedIdx := initIdx, matched := initCount,
      calls := 0, delays := [], pubs := [], ticks := 0 }
    ⟨hc, hnd, by simp, by simp, by simp⟩
  exact ⟨h.2.2.1, h.2.2.2.1, h.1⟩

theorem C6_witness_concrete_run :
    ¬((⟨"sp1", "nm", "al", "im", 1, "u", false, "rd"⟩ : STrack).id = "") ∧
    (matchWithSpotify exOracle (fun _ => false) [exEntryTS, exEntryTS]
        [exTrackM, exTrackM] 0 [] 0).calls = 4 ∧
    (matchWithSpotify exOracle (fun _ => false) [exEntryTS, exEntryTS]
        [exTrackM, exTrackM] 0 [] 0).matchedIdx = [1] ∧
    (matchWithSpotify exOracle (fun _ => false) [exEntryTS, exEntryTS]
        [exTrackM, exTrackM] 0 [] 0).matched = 1 ∧
    (matchWithSpotify exOracle (fun _ => false) [exEntryTS, exEntryTS]
        [exTrackM, exTrackM] 0 [] 0).delays = [10000, 3000, 30000, 1500] := by
  have h := C6_retry_backoff_and_abandon exOracle "HTTP 429" "boom" "Quota exceeded"
    ⟨"sp1", "nm", "al", "im", 1, "u", false, "rd"⟩ exEntryTS exEntryTS exTrackM exTrackM
    rfl rfl rfl rfl (by decide)
  refine ⟨by decide, h.1, h.2.1, h.2.2.1, ?_⟩
  rw [h.2.2.2]
  rfl

theorem C7_witness_concrete_skip :
    (∀ j, j < ([exEntryTS] : List BillboardEntryTS).length →
      ([0] : List Nat).contains j = true) ∧
    (matchWithSpotify exOracle (fun _ => false) [exEntryTS] [exTrackM] 0 [0] 1).calls = 0 ∧
    (matchWithSpotify exOracle (fun _ => false) [exEntryTS] [exTrackM] 0 [0] 1).matched
      = 1 := by
  refine ⟨by decide, ?_⟩
  exact C7_fully_matched_no_calls exOracle (fun _ => false) [exEntryTS] [exTrackM] 0 [0] 1 (by decide)

theorem C10_witness_concrete_pubs :
    ((1 : Nat) = ([0] : List Nat).length ∧ ([0] : List Nat).Nodup) ∧
    (∀ p ∈ (matchWithSpotify exOracle (fun _ => false) [exEntryTS, exEntryTS]
        [exTrackM, exTrackM] 0 [0] 1).pubs, p.1 = p.2.length) ∧
    List.Chain' (fun a b => a.2 <+: b.2)
      (matchWithSpotify exOracle (fun _ => false) [exEntryTS, exEntryTS]
        [exTrackM, exTrackM] 0 [0] 1).pubs ∧
    (matchWithSpotify exOracle (fun _ => false) [exEntryTS, exEntryTS]
        [exTrackM, exTrackM] 0 [0] 1).matched =
    (matchWithSpotify exOracle (fun _ => false) [exEntryTS, exEntryTS]
        [exTrackM, exTrackM] 0 [0] 1).matchedIdx.length := by
  refine ⟨⟨rfl, by decide⟩, ?_⟩
  exact C10_published_count_invariant exOracle (fun _ => false) [exEntryTS, exEntryTS] [exTrackM, exTrackM]
    0 [0] 1 rfl (by decide)

end SpotiFlac
